import Mathlib

/-!
Shallow embedding of the CPU scheduling simulator (FIFO queue, binary-heap
priority queue with pluggable comparators, and the scheduling engine), together
with proofs about the engine's claimed properties.

The C sources embedded here are `queue.c`, `priority_queue.c`, `simulator.c`
and the struct definitions in `cpu_scheduling_simulator.h`.  C pointer
structures become inductive trees / lists; the global `rand()` stream becomes
an explicit `List Bool` of binary samples threaded through the state;
`unsigned int` counters become `Nat`, with wraparound modelled explicitly at
the one place a claim depends on it (the I/O burst decrement).
-/

set_option linter.unusedVariables false

namespace CSS

/-- `Process_t`: identity and workload fields plus mutable simulation counters.
`pid`, the burst/arrival counters (`time_len_t = unsigned int`) are `Nat`;
`priority` is a signed `int`, so `Int`. -/
structure Process where
  pid : Nat
  cpu_burst_time : Nat
  io_burst_time : Nat
  arrival_time : Nat
  priority : Int
  waiting_time : Nat
  turnaround_time : Nat
deriving DecidableEq

/-- `SJF_Compare`: shorter remaining CPU burst first, ties by smaller pid. -/
def SJF_Compare (a b : Process) : Bool :=
  if a.cpu_burst_time ≠ b.cpu_burst_time then decide (a.cpu_burst_time < b.cpu_burst_time)
  else decide (a.pid < b.pid)

/-- `Priority_Compare`: smaller priority value first, ties by smaller pid. -/
def Priority_Compare (a b : Process) : Bool :=
  if a.priority ≠ b.priority then decide (a.priority < b.priority)
  else decide (a.pid < b.pid)

/-- `IO_Burst_Compare`: shorter remaining I/O burst first, ties by smaller pid. -/
def IO_Burst_Compare (a b : Process) : Bool :=
  if a.io_burst_time ≠ b.io_burst_time then decide (a.io_burst_time < b.io_burst_time)
  else decide (a.pid < b.pid)

/-- `Simulator_ArrivalTime_Compare`: earlier arrival first, ties by smaller pid. -/
def Simulator_ArrivalTime_Compare (a b : Process) : Bool :=
  if a.arrival_time ≠ b.arrival_time then decide (a.arrival_time < b.arrival_time)
  else decide (a.pid < b.pid)

/-- The three facts about a strict-order comparator that the heap proofs use:
irreflexivity, transitivity, and transitivity of the complement.  All four
comparators of the simulator are lexicographic strict total orders and satisfy
them. -/
structure StrictCmp (cmp : Process → Process → Bool) : Prop where
  irrefl : ∀ a, cmp a a = false
  trans : ∀ a b c, cmp a b = true → cmp b c = true → cmp a c = true
  negtrans : ∀ a b c, cmp a b = false → cmp b c = false → cmp a c = false

theorem StrictCmp.asym {cmp} (h : StrictCmp cmp) {a b : Process}
    (hab : cmp a b = true) : cmp b a = false := by
  by_contra hba
  have := h.trans a b a hab (by revert hba; cases cmp b a <;> simp)
  rw [h.irrefl a] at this
  exact Bool.false_ne_true this

theorem strictCmp_SJF : StrictCmp SJF_Compare := by
  refine ⟨?_, ?_, ?_⟩ <;> intros <;> simp only [SJF_Compare] at * <;>
    split_ifs at * <;> simp_all <;> omega

theorem strictCmp_Priority : StrictCmp Priority_Compare := by
  refine ⟨?_, ?_, ?_⟩ <;> intros <;> simp only [Priority_Compare] at * <;>
    split_ifs at * <;> simp_all <;> omega

theorem strictCmp_IO_Burst : StrictCmp IO_Burst_Compare := by
  refine ⟨?_, ?_, ?_⟩ <;> intros <;> simp only [IO_Burst_Compare] at * <;>
    split_ifs at * <;> simp_all <;> omega

theorem strictCmp_ArrivalTime : StrictCmp Simulator_ArrivalTime_Compare := by
  refine ⟨?_, ?_, ?_⟩ <;> intros <;> simp only [Simulator_ArrivalTime_Compare] at * <;>
    split_ifs at * <;> simp_all <;> omega

/-! ## FIFO queue (`queue.c`)

The singly linked list with `front`/`rear` pointers becomes a `List` kept in
front-to-rear order, together with the `count` field the C keeps. -/

structure Queue where
  count : Nat
  items : List Process
deriving DecidableEq

def Queue.empty : Queue := ⟨0, []⟩

/-- `Queue_Enqueue`: append at the rear, always succeeds. -/
def Queue_Enqueue (q : Queue) (p : Process) : Queue :=
  { count := q.count + 1, items := q.items ++ [p] }

/-- `Queue_Dequeue`: remove the front node; no-op when `count == 0`. -/
def Queue_Dequeue (q : Queue) : Queue :=
  if q.count = 0 then q else { count := q.count - 1, items := q.items.tail }

/-- `Queue_Front`: the front process, or `NULL` (here `none`) when empty. -/
def Queue_Front (q : Queue) : Option Process :=
  if q.count = 0 then none else q.items.head?

/-- `Queue_IsEmpty`. -/
def Queue_IsEmpty (q : Queue) : Bool := q.count = 0

/-! ## Priority queue (`priority_queue.c`)

The pointer-linked binary tree (`TreeNode_t` with parent pointers) becomes an
inductive binary tree; the bit-position navigation loops of
`Priority_Enqueue`/`Priority_Dequeue` become the explicit root-to-node bit
path of a 1-indexed heap position (most significant bit first), which is the
path the C walker follows. -/

inductive Tree where
  | leaf : Tree
  | node (p : Process) (l r : Tree) : Tree
deriving DecidableEq

namespace Tree

def size : Tree → Nat
  | leaf => 0
  | node _ l r => l.size + r.size + 1

def root? : Tree → Option Process
  | leaf => none
  | node p _ _ => some p

def memB (x : Process) : Tree → Bool
  | leaf => false
  | node p l r => x == p || memB x l || memB x r

def toMul : Tree → Multiset Process
  | leaf => 0
  | node p l r => p ::ₘ (toMul l + toMul r)

end Tree

/-- The root-to-position path for 1-indexed heap position `n`: the bits of `n`
below its leading one, most significant first (`true` = right).  This is the
path computed by the `pos` loops in `Priority_Enqueue`/`Priority_Dequeue`. -/
def bitPathAux : Nat → Nat → List Bool
  | 0, _ => []
  | fuel + 1, n =>
    if n ≤ 1 then []
    else bitPathAux fuel (n / 2) ++ [decide (n % 2 = 1)]

def bitPath (n : Nat) : List Bool := bitPathAux n n

theorem bitPathAux_congr : ∀ (n f g : Nat), n ≤ f → n ≤ g → bitPathAux f n = bitPathAux g n := by
  intro n
  induction n using Nat.strong_induction_on with
  | _ n ih =>
    intro f g hf hg
    match f, g with
    | 0, 0 => rfl
    | 0, g + 1 =>
      have : n = 0 := by omega
      subst this
      simp [bitPathAux]
    | f + 1, 0 =>
      have : n = 0 := by omega
      subst this
      simp [bitPathAux]
    | f + 1, g + 1 =>
      show (if n ≤ 1 then [] else bitPathAux f (n / 2) ++ [decide (n % 2 = 1)]) =
        (if n ≤ 1 then [] else bitPathAux g (n / 2) ++ [decide (n % 2 = 1)])
      split_ifs with h
      · rfl
      · rw [ih (n / 2) (by omega) f g (by omega) (by omega)]

/-- The defining recursion of `bitPath`. -/
theorem bitPath_eq (n : Nat) :
    bitPath n = if n ≤ 1 then [] else bitPath (n / 2) ++ [decide (n % 2 = 1)] := by
  unfold bitPath
  match n with
  | 0 => rfl
  | 1 => rfl
  | n + 2 =>
    show (if n + 2 ≤ 1 then [] else bitPathAux (n + 1) ((n + 2) / 2) ++ _) = _
    rw [if_neg (by omega), if_neg (by omega),
      bitPathAux_congr ((n + 2) / 2) (n + 1) ((n + 2) / 2) (by omega) (by omega)]

/-- Heap index reached after following path `p` from index `i`
(left child of `i` is `2i`, right child is `2i+1`). -/
def idxAfter (i : Nat) : List Bool → Nat
  | [] => i
  | b :: p => idxAfter (if b then 2 * i + 1 else 2 * i) p

namespace Tree

/-- Insertion with the upward heap adjustment of `Priority_Enqueue`: the new
node is placed at the end of path `p`, and on the way back up each
parent/child payload pair is swapped while the child compares strictly ahead.
(The C performs the same payload swaps bottom-up with an early break; on a
valid heap the comparisons above the break point are false, so checking them
on the unwind yields the same tree.) -/
def siftInsert (cmp : Process → Process → Bool) (v : Process) : Tree → List Bool → Tree
  | _, [] => node v leaf leaf
  | leaf, _ :: _ => leaf
  | node x l r, false :: p =>
    match siftInsert cmp v l p with
    | leaf => node x leaf r
    | node y yl yr => if cmp y x then node y (node x yl yr) r else node x (node y yl yr) r
  | node x l r, true :: p =>
    match siftInsert cmp v r p with
    | leaf => node x l leaf
    | node y yl yr => if cmp y x then node y l (node x yl yr) else node x l (node y yl yr)

/-- Removal of the last tree node at path `p`, returning its payload
(`Priority_Dequeue` copies that payload to the root before freeing the node).
The removed node is a leaf in every reachable (complete) tree; other shapes
return `none` and leave the tree unchanged. -/
def removeLast : Tree → List Bool → Option Process × Tree
  | node x leaf leaf, [] => (some x, leaf)
  | t, [] => (none, t)
  | leaf, _ :: _ => (none, leaf)
  | node x l r, false :: p =>
    let res := removeLast l p
    (res.1, node x res.2 r)
  | node x l r, true :: p =>
    let res := removeLast r p
    (res.1, node x l res.2)

def setRoot (v : Process) : Tree → Tree
  | leaf => leaf
  | node _ l r => node v l r

/-- The downward heap adjustment of `Priority_Dequeue`: at each node pick the
child that compares ahead (the sole child if only one exists), swap payloads
while that child compares strictly ahead of the current node.  Each swap moves
strictly down the tree, so the walk is bounded by the tree size: `siftDown`
below supplies `t.size` as structural fuel, which is never exhausted. -/
def siftDownAux (cmp : Process → Process → Bool) : Nat → Tree → Tree
  | 0, t => t
  | _ + 1, leaf => leaf
  | _ + 1, node x leaf leaf => node x leaf leaf
  | fuel + 1, node x (node y yl yr) leaf =>
    if cmp y x then node y (siftDownAux cmp fuel (node x yl yr)) leaf
    else node x (node y yl yr) leaf
  | fuel + 1, node x leaf (node z zl zr) =>
    if cmp z x then node z leaf (siftDownAux cmp fuel (node x zl zr))
    else node x leaf (node z zl zr)
  | fuel + 1, node x (node y yl yr) (node z zl zr) =>
    if cmp y z then
      if cmp y x then node y (siftDownAux cmp fuel (node x yl yr)) (node z zl zr)
      else node x (node y yl yr) (node z zl zr)
    else
      if cmp z x then node z (node y yl yr) (siftDownAux cmp fuel (node x zl zr))
      else node x (node y yl yr) (node z zl zr)

def siftDown (cmp : Process → Process → Bool) (t : Tree) : Tree :=
  siftDownAux cmp t.size t

end Tree

/-- `Priority_Queue_t`: node count plus the tree.  The C also stores the
comparator function pointer chosen at `Priority_Init`; here the comparator is
passed to each operation instead, so that states stay function-free. -/
structure PQ where
  count : Nat
  top : Tree
deriving DecidableEq

def PQ.empty : PQ := ⟨0, Tree.leaf⟩

/-- `Priority_Enqueue`: place the new node at tree position `count + 1`
(the next complete-tree slot) and sift upward. -/
def Priority_Enqueue (cmp : Process → Process → Bool) (q : PQ) (v : Process) : PQ :=
  if q.count = 0 then { count := 1, top := Tree.node v Tree.leaf Tree.leaf }
  else { count := q.count + 1, top := Tree.siftInsert cmp v q.top (bitPath (q.count + 1)) }

/-- `Priority_Dequeue`: no-op when empty; when one element remains the queue
becomes empty; otherwise move the last node's payload to the root, delete the
last node, and sift the root downward. -/
def Priority_Dequeue (cmp : Process → Process → Bool) (q : PQ) : PQ :=
  if q.count = 0 then q
  else if q.count = 1 then PQ.empty
  else
    let res := Tree.removeLast q.top (bitPath q.count)
    match res.1 with
    | none => { count := q.count - 1, top := res.2 }
    | some v => { count := q.count - 1, top := Tree.siftDown cmp (Tree.setRoot v res.2) }

/-- `Priority_Top`: root payload, or `NULL` (here `none`) when empty. -/
def Priority_Top (q : PQ) : Option Process :=
  if q.count = 0 then none else q.top.root?

/-- `Priority_IsEmpty`. -/
def Priority_IsEmpty (q : PQ) : Bool := q.count = 0

/-- One parent/child comparison of the heap property: the child (if present)
does not compare strictly ahead of `x`. -/
def rootCheck (cmp : Process → Process → Bool) (x : Process) : Tree → Bool
  | .leaf => true
  | .node y _ _ => !cmp y x

/-- The heap-order property: at every parent/child pair the child does not
compare strictly ahead of its parent. -/
def heapOk (cmp : Process → Process → Bool) : Tree → Bool
  | .leaf => true
  | .node x l r => rootCheck cmp x l && rootCheck cmp x r && heapOk cmp l && heapOk cmp r

/-- Completeness of the tree relative to the stored `count`, phrased on heap
indices: the subtree rooted at index `i` has a node exactly at the indices
`j ≤ n` of its index range.  `completeIdx t 1 n` says `t` is the complete
binary tree with nodes at positions `1..n`. -/
def completeIdx : Tree → Nat → Nat → Bool
  | .leaf, i, n => decide (n < i)
  | .node _ l r, i, n => decide (i ≤ n) && completeIdx l (2 * i) n && completeIdx r (2 * i + 1) n

/-- Well-formedness of a priority queue: the tree is the complete tree with
exactly `count` nodes. -/
def pqWF (q : PQ) : Prop := completeIdx q.top 1 q.count = true

/-! ## FIFO order (claim C8) -/

/-- One driver step exercising the FIFO queue: `some p` is `Queue_Enqueue p`,
`none` is a `Queue_Dequeue` that first records `Queue_Front` (the process
being removed) when the queue is non-empty. -/
def queueStep (st : Queue × List Process) (op : Option Process) : Queue × List Process :=
  match op with
  | some p => (Queue_Enqueue st.1 p, st.2)
  | none =>
    match Queue_Front st.1 with
    | some f => (Queue_Dequeue st.1, st.2 ++ [f])
    | none => (Queue_Dequeue st.1, st.2)

/-- Run an interleaved sequence of enqueues/dequeues from the empty queue,
collecting the removed processes in order. -/
def queueRun (ops : List (Option Process)) : Queue × List Process :=
  ops.foldl queueStep (Queue.empty, [])

theorem queueRun_inv (ops : List (Option Process)) (q : Queue) (out : List Process)
    (h : q.count = q.items.length) :
    (ops.foldl queueStep (q, out)).1.count = (ops.foldl queueStep (q, out)).1.items.length ∧
    ∃ k, (ops.foldl queueStep (q, out)).2 = out ++ (q.items ++ ops.filterMap id).take k ∧
      (ops.foldl queueStep (q, out)).1.items = (q.items ++ ops.filterMap id).drop k := by
  induction ops generalizing q out with
  | nil => exact ⟨h, 0, by simp, by simp⟩
  | cons op rest ih =>
    match op with
    | some p =>
      have step : queueStep (q, out) (some p) = (Queue_Enqueue q p, out) := rfl
      have h2 : (Queue_Enqueue q p).count = (Queue_Enqueue q p).items.length := by
        simp [Queue_Enqueue, h]
      obtain ⟨hc, k, h3, h4⟩ := ih (Queue_Enqueue q p) out h2
      have hl : q.items ++ List.filterMap id (some p :: rest) =
          (Queue_Enqueue q p).items ++ List.filterMap id rest := by
        simp [Queue_Enqueue, List.filterMap_cons]
      rw [List.foldl_cons, step, hl]
      exact ⟨hc, k, h3, h4⟩
    | none =>
      by_cases hq : q.count = 0
      · have hitems : q.items = [] := by
          cases hi : q.items with
          | nil => rfl
          | cons a b => rw [hi] at h; simp at h; omega
        have step : queueStep (q, out) none = (q, out) := by
          simp [queueStep, Queue_Front, Queue_Dequeue, hq]
        obtain ⟨hc, k, h3, h4⟩ := ih q out h
        have hl : q.items ++ List.filterMap id (none :: rest) =
            q.items ++ List.filterMap id rest := by
          simp [List.filterMap_cons]
        rw [List.foldl_cons, step, hl]
        exact ⟨hc, k, h3, h4⟩
      · obtain ⟨hd, tl, hi⟩ : ∃ hd tl, q.items = hd :: tl := by
          cases hi : q.items with
          | nil => rw [hi] at h; simp at h; omega
          | cons a b => exact ⟨a, b, rfl⟩
        have hfront : Queue_Front q = some hd := by simp [Queue_Front, hq, hi]
        have step : queueStep (q, out) none = (Queue_Dequeue q, out ++ [hd]) := by
          simp [queueStep, hfront]
        have h2 : (Queue_Dequeue q).count = (Queue_Dequeue q).items.length := by
          simp [Queue_Dequeue, hq, hi] at *; omega
        obtain ⟨hc, k, h3, h4⟩ := ih (Queue_Dequeue q) (out ++ [hd]) h2
        have hdq : (Queue_Dequeue q).items = tl := by simp [Queue_Dequeue, hq, hi]
        rw [List.foldl_cons, step]
        have hl : q.items ++ List.filterMap id (none :: rest) =
            hd :: ((Queue_Dequeue q).items ++ List.filterMap id rest) := by
          simp [hi, hdq, List.filterMap_cons]
        rw [hl]
        refine ⟨hc, k + 1, ?_, ?_⟩
        · rw [List.take_succ_cons, h3]
          simp
        · rw [List.drop_succ_cons, h4]

/-- Claim C8: for any interleaved sequence of `Queue_Enqueue`/`Queue_Dequeue`
calls starting from the empty FIFO queue, the sequence of removed processes is
an initial segment, in order, of the sequence of enqueued processes, and the
processes still stored are exactly the remaining enqueued processes in order:
strict first-in-first-out behaviour. -/
theorem fifo_order (ops : List (Option Process)) :
    (queueRun ops).2 = (ops.filterMap id).take (queueRun ops).2.length ∧
    (queueRun ops).1.items = (ops.filterMap id).drop (queueRun ops).2.length := by
  obtain ⟨hc, k, h1, h2⟩ := queueRun_inv ops Queue.empty [] rfl
  have e1 : (queueRun ops).2 = (ops.filterMap id).take k := by
    simpa [queueRun, Queue.empty] using h1
  have e2 : (queueRun ops).1.items = (ops.filterMap id).drop k := by
    simpa [queueRun, Queue.empty] using h2
  rcases le_or_lt k (ops.filterMap id).length with hk | hk
  · have : (queueRun ops).2.length = k := by rw [e1]; simp; omega
    rw [this, e1, e2]; exact ⟨rfl, rfl⟩
  · have hlen : (queueRun ops).2.length = (ops.filterMap id).length := by
      rw [e1]; simp; omega
    rw [hlen, e1, e2]
    constructor
    · rw [List.take_of_length_le (by omega), List.take_length]
    · rw [List.drop_of_length_le (by omega), List.drop_length]

/-! ## Heap invariant (claim C2): auxiliary lemmas -/

namespace Tree

theorem toMul_leaf : toMul leaf = 0 := rfl

theorem toMul_node (p : Process) (l r : Tree) :
    toMul (node p l r) = p ::ₘ (toMul l + toMul r) := rfl

theorem root?_mem {t : Tree} {w : Process} (h : t.root? = some w) : w ∈ toMul t := by
  cases t with
  | leaf => simp [root?] at h
  | node p l r =>
    simp [root?] at h
    subst h
    simp [toMul]

end Tree

/-- Root-minimality: in a heap, no stored element compares strictly ahead of
the root. -/
theorem heap_rootMin {cmp} (hs : StrictCmp cmp) :
    ∀ (t : Tree) (x y : Process), heapOk cmp t = true → t.root? = some x →
      y ∈ t.toMul → cmp y x = false := by
  intro t
  induction t with
  | leaf => intro x y _ h; simp [Tree.root?] at h
  | node p l r ihl ihr =>
    intro x y hok hr hm
    have hxp : x = p := by
      simp only [Tree.root?, Option.some.injEq] at hr
      exact hr.symm
    subst hxp
    simp only [heapOk, Bool.and_eq_true] at hok
    obtain ⟨⟨⟨hcl, hcr⟩, hl⟩, hr2⟩ := hok
    simp only [Tree.toMul_node, Multiset.mem_cons, Multiset.mem_add] at hm
    rcases hm with h1 | h2 | h3
    · rw [h1]; exact hs.irrefl x
    · cases l with
      | leaf => simp [Tree.toMul] at h2
      | node a al ar =>
        have h4 : cmp y a = false := ihl a y hl rfl h2
        have h5 : cmp a x = false := by simpa [rootCheck] using hcl
        exact hs.negtrans y a x h4 h5
    · cases r with
      | leaf => simp [Tree.toMul] at h3
      | node a al ar =>
        have h4 : cmp y a = false := ihr a y hr2 rfl h3
        have h5 : cmp a x = false := by simpa [rootCheck] using hcr
        exact hs.negtrans y a x h4 h5

/-- Subtree domination: in a heap `node x l r`, no element of `l` or `r`
compares strictly ahead of `x`. -/
theorem heap_subMin {cmp} (hs : StrictCmp cmp) {x : Process} {l r : Tree}
    (hok : heapOk cmp (Tree.node x l r) = true) :
    ∀ w, w ∈ l.toMul + r.toMul → cmp w x = false := by
  intro w hw
  have : w ∈ (Tree.node x l r).toMul := by
    simp only [Tree.toMul_node, Multiset.mem_cons]
    exact Or.inr hw
  exact heap_rootMin hs (Tree.node x l r) x w hok rfl this

/-- The elements of the tree after `siftInsert` are bounded (as a multiset) by
the old elements plus the new one.  (Equality holds on well-formed insert
paths; the bound holds for every tree and path.) -/
theorem count_toMul_siftInsert {cmp} (v : Process) :
    ∀ (p : List Bool) (t : Tree) (a : Process),
      (Tree.siftInsert cmp v t p).toMul.count a ≤ (v ::ₘ t.toMul).count a := by
  intro p
  induction p with
  | nil =>
    intro t a
    simp only [Tree.siftInsert, Tree.toMul, Multiset.count_cons, Multiset.count_add,
      Multiset.count_zero]
    omega
  | cons b p ih =>
    intro t a
    cases t with
    | leaf => cases b <;> simp [Tree.siftInsert, Tree.toMul]
    | node x l r =>
      cases b
      · have hins : Tree.siftInsert cmp v (Tree.node x l r) (false :: p) =
            match Tree.siftInsert cmp v l p with
            | Tree.leaf => Tree.node x Tree.leaf r
            | Tree.node y yl yr =>
              if cmp y x then Tree.node y (Tree.node x yl yr) r
              else Tree.node x (Tree.node y yl yr) r := rfl
        rw [hins]
        have hc := ih l a
        rcases hch : Tree.siftInsert cmp v l p with _ | ⟨y, yl, yr⟩ <;> rw [hch] at hc <;>
          dsimp only
        · simp only [Tree.toMul_node, Tree.toMul_leaf, Multiset.count_cons, Multiset.count_add,
            Multiset.count_zero] at hc ⊢
          omega
        · split_ifs <;>
            simp only [Tree.toMul_node, Multiset.count_cons, Multiset.count_add,
              Multiset.count_zero] at hc ⊢ <;> omega
      · have hins : Tree.siftInsert cmp v (Tree.node x l r) (true :: p) =
            match Tree.siftInsert cmp v r p with
            | Tree.leaf => Tree.node x l Tree.leaf
            | Tree.node y yl yr =>
              if cmp y x then Tree.node y l (Tree.node x yl yr)
              else Tree.node x l (Tree.node y yl yr) := rfl
        rw [hins]
        have hc := ih r a
        rcases hch : Tree.siftInsert cmp v r p with _ | ⟨y, yl, yr⟩ <;> rw [hch] at hc <;>
          dsimp only
        · simp only [Tree.toMul_node, Tree.toMul_leaf, Multiset.count_cons, Multiset.count_add,
            Multiset.count_zero] at hc ⊢
          omega
        · split_ifs <;>
            simp only [Tree.toMul_node, Multiset.count_cons, Multiset.count_add,
              Multiset.count_zero] at hc ⊢ <;> omega

theorem mem_toMul_siftInsert {cmp} {v y : Process} {p : List Bool} {t : Tree}
    (h : y ∈ (Tree.siftInsert cmp v t p).toMul) : y = v ∨ y ∈ t.toMul := by
  have hc := @count_toMul_siftInsert cmp v p t y
  rw [Multiset.count_cons] at hc
  by_cases hyv : y = v
  · exact Or.inl hyv
  · right
    rw [← Multiset.count_pos] at h ⊢
    simp [hyv] at hc
    omega

theorem rootCheck_eq_true_iff {cmp : Process → Process → Bool} {u : Process} {t : Tree} :
    rootCheck cmp u t = true ↔ ∀ w, t.root? = some w → cmp w u = false := by
  cases t <;> simp [rootCheck, Tree.root?]

theorem heapOk_node_iff {cmp : Process → Process → Bool} {x : Process} {l r : Tree} :
    heapOk cmp (Tree.node x l r) = true ↔
      rootCheck cmp x l = true ∧ rootCheck cmp x r = true ∧
      heapOk cmp l = true ∧ heapOk cmp r = true := by
  simp [heapOk, Bool.and_eq_true, and_assoc]


/-- `siftDown` permutes payloads only: the stored multiset is unchanged. -/
theorem siftDownAux_toMul (cmp : Process → Process → Bool) :
    ∀ (fuel : Nat) (t : Tree), (Tree.siftDownAux cmp fuel t).toMul = t.toMul := by
  intro fuel t
  induction fuel, t using Tree.siftDownAux.induct cmp
  all_goals try simp_all [Tree.siftDownAux, Tree.toMul_node, Tree.toMul_leaf]
  all_goals simp only [← Multiset.singleton_add]
  all_goals abel

/-- `siftDown` permutes payloads only: the stored multiset is unchanged. -/
theorem siftDown_toMul (cmp : Process → Process → Bool) :
    ∀ t, (Tree.siftDown cmp t).toMul = t.toMul := fun t =>
  siftDownAux_toMul cmp t.size t

/-- The hypothesis `siftDown` needs: both immediate subtrees are heaps (the
root payload may be arbitrary). -/
def subHeaps (cmp : Process → Process → Bool) : Tree → Prop
  | .leaf => True
  | .node _ l r => heapOk cmp l = true ∧ heapOk cmp r = true

theorem siftDownAux_heapOk {cmp} (hs : StrictCmp cmp) :
    ∀ (fuel : Nat) (t : Tree), t.size ≤ fuel → subHeaps cmp t →
      heapOk cmp (Tree.siftDownAux cmp fuel t) = true := by
  have hroot : ∀ (fuel : Nat) (x : Process) (l r : Tree) (w : Process),
      (Tree.siftDownAux cmp fuel (Tree.node x l r)).root? = some w →
      (w = x ∨ w ∈ l.toMul + r.toMul) := by
    intro fuel x l r w hw
    have hm : w ∈ (Tree.siftDownAux cmp fuel (Tree.node x l r)).toMul := Tree.root?_mem hw
    rw [siftDownAux_toMul, Tree.toMul_node] at hm
    simpa using hm
  intro fuel t
  induction fuel, t using Tree.siftDownAux.induct cmp with
  | case1 t =>
    intro hsz hsub
    match t with
    | Tree.leaf => rfl
    | Tree.node x l r => simp [Tree.size] at hsz
  | case2 fuel => intro hsz hsub; rfl
  | case3 fuel x => intro hsz hsub; simp [Tree.siftDownAux, heapOk, rootCheck]
  | case4 fuel x y yl yr hcmp ih =>
    intro hsz hsub
    obtain ⟨hly, -⟩ := hsub
    rw [heapOk_node_iff] at hly
    obtain ⟨h1, h2, h3, h4⟩ := hly
    have hsz2 : (Tree.node x yl yr).size ≤ fuel := by
      simp only [Tree.size] at hsz ⊢; omega
    have hrec : heapOk cmp (Tree.siftDownAux cmp fuel (Tree.node x yl yr)) = true :=
      ih hsz2 ⟨h3, h4⟩
    have hins : Tree.siftDownAux cmp (fuel + 1) (Tree.node x (Tree.node y yl yr) Tree.leaf) =
        Tree.node y (Tree.siftDownAux cmp fuel (Tree.node x yl yr)) Tree.leaf := by
      rw [Tree.siftDownAux]; simp [hcmp]
    rw [hins, heapOk_node_iff]
    refine ⟨?_, rfl, hrec, rfl⟩
    rw [rootCheck_eq_true_iff]
    intro w hw
    rcases hroot fuel x yl yr w hw with rfl | hw2
    · exact hs.asym hcmp
    · exact heap_subMin hs (heapOk_node_iff.mpr ⟨h1, h2, h3, h4⟩) w hw2
  | case5 fuel x y yl yr hcmp =>
    intro hsz hsub
    obtain ⟨hly, -⟩ := hsub
    have hins : Tree.siftDownAux cmp (fuel + 1) (Tree.node x (Tree.node y yl yr) Tree.leaf) =
        Tree.node x (Tree.node y yl yr) Tree.leaf := by
      rw [Tree.siftDownAux]; simp [hcmp]
    rw [hins, heapOk_node_iff]
    refine ⟨?_, rfl, hly, rfl⟩
    simp only [rootCheck, Bool.not_eq_true]
    simp only [Bool.not_eq_true] at hcmp
    rw [hcmp]
    rfl
  | case6 fuel x z zl zr hcmp ih =>
    intro hsz hsub
    obtain ⟨-, hrz⟩ := hsub
    rw [heapOk_node_iff] at hrz
    obtain ⟨h1, h2, h3, h4⟩ := hrz
    have hsz2 : (Tree.node x zl zr).size ≤ fuel := by
      simp only [Tree.size] at hsz ⊢; omega
    have hrec : heapOk cmp (Tree.siftDownAux cmp fuel (Tree.node x zl zr)) = true :=
      ih hsz2 ⟨h3, h4⟩
    have hins : Tree.siftDownAux cmp (fuel + 1) (Tree.node x Tree.leaf (Tree.node z zl zr)) =
        Tree.node z Tree.leaf (Tree.siftDownAux cmp fuel (Tree.node x zl zr)) := by
      rw [Tree.siftDownAux]; simp [hcmp]
    rw [hins, heapOk_node_iff]
    refine ⟨rfl, ?_, rfl, hrec⟩
    rw [rootCheck_eq_true_iff]
    intro w hw
    rcases hroot fuel x zl zr w hw with rfl | hw2
    · exact hs.asym hcmp
    · exact heap_subMin hs (heapOk_node_iff.mpr ⟨h1, h2, h3, h4⟩) w hw2
  | case7 fuel x z zl zr hcmp =>
    intro hsz hsub
    obtain ⟨-, hrz⟩ := hsub
    have hins : Tree.siftDownAux cmp (fuel + 1) (Tree.node x Tree.leaf (Tree.node z zl zr)) =
        Tree.node x Tree.leaf (Tree.node z zl zr) := by
      rw [Tree.siftDownAux]; simp [hcmp]
    rw [hins, heapOk_node_iff]
    refine ⟨rfl, ?_, rfl, hrz⟩
    simp only [rootCheck, Bool.not_eq_true]
    simp only [Bool.not_eq_true] at hcmp
    rw [hcmp]
    rfl
  | case8 fuel x y yl yr z zl zr hyz hcmp ih =>
    intro hsz hsub
    obtain ⟨hly, hrz⟩ := hsub
    rw [heapOk_node_iff] at hly
    obtain ⟨h1, h2, h3, h4⟩ := hly
    have hsz2 : (Tree.node x yl yr).size ≤ fuel := by
      simp only [Tree.size] at hsz ⊢; omega
    have hrec : heapOk cmp (Tree.siftDownAux cmp fuel (Tree.node x yl yr)) = true :=
      ih hsz2 ⟨h3, h4⟩
    have hins : Tree.siftDownAux cmp (fuel + 1)
        (Tree.node x (Tree.node y yl yr) (Tree.node z zl zr)) =
        Tree.node y (Tree.siftDownAux cmp fuel (Tree.node x yl yr)) (Tree.node z zl zr) := by
      rw [Tree.siftDownAux]; simp [hyz, hcmp]
    rw [hins, heapOk_node_iff]
    refine ⟨?_, ?_, hrec, hrz⟩
    · rw [rootCheck_eq_true_iff]
      intro w hw
      rcases hroot fuel x yl yr w hw with rfl | hw2
      · exact hs.asym hcmp
      · exact heap_subMin hs (heapOk_node_iff.mpr ⟨h1, h2, h3, h4⟩) w hw2
    · simp [rootCheck, hs.asym hyz]
  | case9 fuel x y yl yr z zl zr hyz hcmp =>
    intro hsz hsub
    obtain ⟨hly, hrz⟩ := hsub
    have hzx : cmp z x = false := by
      by_contra hzx2
      simp only [Bool.not_eq_false] at hzx2
      have := hs.trans y z x hyz hzx2
      simp [this] at hcmp
    have hins : Tree.siftDownAux cmp (fuel + 1)
        (Tree.node x (Tree.node y yl yr) (Tree.node z zl zr)) =
        Tree.node x (Tree.node y yl yr) (Tree.node z zl zr) := by
      rw [Tree.siftDownAux]; simp [hyz, hcmp]
    rw [hins, heapOk_node_iff]
    refine ⟨?_, ?_, hly, hrz⟩
    · simp only [rootCheck, Bool.not_eq_true]
      simp only [Bool.not_eq_true] at hcmp
      rw [hcmp]
      rfl
    · simp [rootCheck, hzx]
  | case10 fuel x y yl yr z zl zr hyz hcmp ih =>
    intro hsz hsub
    obtain ⟨hly, hrz⟩ := hsub
    rw [heapOk_node_iff] at hrz
    obtain ⟨h1, h2, h3, h4⟩ := hrz
    have hsz2 : (Tree.node x zl zr).size ≤ fuel := by
      simp only [Tree.size] at hsz ⊢; omega
    have hrec : heapOk cmp (Tree.siftDownAux cmp fuel (Tree.node x zl zr)) = true :=
      ih hsz2 ⟨h3, h4⟩
    have hins : Tree.siftDownAux cmp (fuel + 1)
        (Tree.node x (Tree.node y yl yr) (Tree.node z zl zr)) =
        Tree.node z (Tree.node y yl yr) (Tree.siftDownAux cmp fuel (Tree.node x zl zr)) := by
      rw [Tree.siftDownAux]; simp [hyz, hcmp]
    rw [hins, heapOk_node_iff]
    refine ⟨?_, ?_, hly, hrec⟩
    · simp only [rootCheck, Bool.not_eq_true]
      simp only [Bool.not_eq_true] at hyz
      rw [hyz]
      rfl
    · rw [rootCheck_eq_true_iff]
      intro w hw
      rcases hroot fuel x zl zr w hw with rfl | hw2
      · exact hs.asym hcmp
      · exact heap_subMin hs (heapOk_node_iff.mpr ⟨h1, h2, h3, h4⟩) w hw2
  | case11 fuel x y yl yr z zl zr hyz hcmp =>
    intro hsz hsub
    obtain ⟨hly, hrz⟩ := hsub
    have hyx : cmp y x = false := by
      have hyzf : cmp y z = false := by simpa using hyz
      have hzxf : cmp z x = false := by simpa using hcmp
      exact hs.negtrans y z x hyzf hzxf
    have hins : Tree.siftDownAux cmp (fuel + 1)
        (Tree.node x (Tree.node y yl yr) (Tree.node z zl zr)) =
        Tree.node x (Tree.node y yl yr) (Tree.node z zl zr) := by
      rw [Tree.siftDownAux]; simp [hyz, hcmp]
    rw [hins, heapOk_node_iff]
    refine ⟨?_, ?_, hly, hrz⟩
    · simp [rootCheck, hyx]
    · simp only [rootCheck, Bool.not_eq_true]
      simp only [Bool.not_eq_true] at hcmp
      rw [hcmp]
      rfl

theorem siftDown_heapOk {cmp} (hs : StrictCmp cmp) :
    ∀ t, subHeaps cmp t → heapOk cmp (Tree.siftDown cmp t) = true := fun t hsub =>
  siftDownAux_heapOk hs t.size t le_rfl hsub


theorem removeLast_nil (t : Tree) (h : ∀ x, t = Tree.node x Tree.leaf Tree.leaf → False) :
    Tree.removeLast t [] = (none, t) := by
  match t with
  | .leaf => rfl
  | .node x .leaf .leaf => exact absurd rfl (h x)
  | .node x .leaf (.node ..) => rfl
  | .node x (.node ..) .leaf => rfl
  | .node x (.node ..) (.node ..) => rfl

/-- `removeLast` only removes elements. -/
theorem removeLast_count_le :
    ∀ (t : Tree) (p : List Bool) (a : Process),
      (Tree.removeLast t p).2.toMul.count a ≤ t.toMul.count a := by
  intro t p
  induction t, p using Tree.removeLast.induct with
  | case1 x => intro a; simp [Tree.removeLast, Tree.toMul_leaf]
  | case2 t h => intro a; rw [removeLast_nil t h]
  | case3 b p => intro a; simp [Tree.removeLast, Tree.toMul_leaf]
  | case4 x l r p ih =>
    intro a
    have hstep : Tree.removeLast (Tree.node x l r) (false :: p) =
        ((Tree.removeLast l p).1, Tree.node x (Tree.removeLast l p).2 r) := by
      simp [Tree.removeLast]
    rw [hstep]
    have := ih a
    simp only [Tree.toMul_node, Multiset.count_cons, Multiset.count_add] at *
    omega
  | case5 x l r p ih =>
    intro a
    have hstep : Tree.removeLast (Tree.node x l r) (true :: p) =
        ((Tree.removeLast r p).1, Tree.node x l (Tree.removeLast r p).2) := by
      simp [Tree.removeLast]
    rw [hstep]
    have := ih a
    simp only [Tree.toMul_node, Multiset.count_cons, Multiset.count_add] at *
    omega

/-- `removeLast` keeps the root payload (or empties the tree). -/
theorem removeLast_root :
    ∀ (t : Tree) (p : List Bool),
      (Tree.removeLast t p).2 = Tree.leaf ∨ (Tree.removeLast t p).2.root? = t.root? := by
  intro t p
  induction t, p using Tree.removeLast.induct with
  | case1 x => left; rfl
  | case2 t h => right; rw [removeLast_nil t h]
  | case3 b p => left; rfl
  | case4 x l r p ih =>
    right
    have hstep : Tree.removeLast (Tree.node x l r) (false :: p) =
        ((Tree.removeLast l p).1, Tree.node x (Tree.removeLast l p).2 r) := by
      simp [Tree.removeLast]
    rw [hstep]
    rfl
  | case5 x l r p ih =>
    right
    have hstep : Tree.removeLast (Tree.node x l r) (true :: p) =
        ((Tree.removeLast r p).1, Tree.node x l (Tree.removeLast r p).2) := by
      simp [Tree.removeLast]
    rw [hstep]
    rfl

/-- `removeLast` preserves the heap property. -/
theorem removeLast_heapOk {cmp : Process → Process → Bool} :
    ∀ (t : Tree) (p : List Bool), heapOk cmp t = true →
      heapOk cmp (Tree.removeLast t p).2 = true := by
  intro t p
  induction t, p using Tree.removeLast.induct with
  | case1 x => intro h; rfl
  | case2 t h => intro hok; rw [removeLast_nil t h]; exact hok
  | case3 b p => intro h; rfl
  | case4 x l r p ih =>
    intro hok
    simp only [heapOk, Bool.and_eq_true] at hok
    obtain ⟨⟨⟨hcl, hcr⟩, hl⟩, hr⟩ := hok
    have hstep : Tree.removeLast (Tree.node x l r) (false :: p) =
        ((Tree.removeLast l p).1, Tree.node x (Tree.removeLast l p).2 r) := by
      simp [Tree.removeLast]
    rw [hstep]
    simp only [heapOk, Bool.and_eq_true]
    refine ⟨⟨⟨?_, hcr⟩, ih hl⟩, hr⟩
    rcases removeLast_root l p with h | h
    · rw [h]; rfl
    · rw [rootCheck_eq_true_iff]
      intro w hw
      rw [h] at hw
      exact rootCheck_eq_true_iff.mp hcl w hw
  | case5 x l r p ih =>
    intro hok
    simp only [heapOk, Bool.and_eq_true] at hok
    obtain ⟨⟨⟨hcl, hcr⟩, hl⟩, hr⟩ := hok
    have hstep : Tree.removeLast (Tree.node x l r) (true :: p) =
        ((Tree.removeLast r p).1, Tree.node x l (Tree.removeLast r p).2) := by
      simp [Tree.removeLast]
    rw [hstep]
    simp only [heapOk, Bool.and_eq_true]
    refine ⟨⟨⟨hcl, ?_⟩, hl⟩, ih hr⟩
    rcases removeLast_root r p with h | h
    · rw [h]; rfl
    · rw [rootCheck_eq_true_iff]
      intro w hw
      rw [h] at hw
      exact rootCheck_eq_true_iff.mp hcr w hw

/-- When the upward adjustment swaps the inserted subtree's root above `x`,
that root must be the freshly inserted value, and the demoted subtrees are
still dominated by `x`. -/
theorem siftInsert_swap_analysis {cmp} (hs : StrictCmp cmp) {v x : Process} {s : Tree}
    (p : List Bool)
    (hdom : ∀ w, w ∈ s.toMul → cmp w x = false)
    {y : Process} {cl cr : Tree}
    (hch : Tree.siftInsert cmp v s p = Tree.node y cl cr)
    (hcmp : cmp y x = true) :
    y = v ∧ (∀ w, w ∈ cl.toMul → cmp w x = false) ∧ (∀ w, w ∈ cr.toMul → cmp w x = false) := by
  have hyv : y = v := by
    by_contra hne
    have hmem : y ∈ (Tree.siftInsert cmp v s p).toMul := by
      rw [hch]; simp [Tree.toMul_node]
    rcases mem_toMul_siftInsert hmem with h | h
    · exact hne h
    · rw [hdom y h] at hcmp; exact Bool.false_ne_true hcmp
  rw [hyv] at hch hcmp
  have hside : ∀ (u : Tree), (∀ w, w ∈ u.toMul → w ∈ cl.toMul ∨ w ∈ cr.toMul) →
      ∀ w, w ∈ u.toMul → cmp w x = false := by
    intro u hu w hw
    by_cases hwv : w = v
    · exfalso
      rw [hwv] at hw
      have hcount := @count_toMul_siftInsert cmp v p s v
      rw [hch] at hcount
      simp only [Tree.toMul_node, Multiset.count_cons, Multiset.count_add, if_pos rfl] at hcount
      have hc1 : 0 < cl.toMul.count v + cr.toMul.count v := by
        rcases hu v hw with h | h
        · have := Multiset.count_pos.mpr h; omega
        · have := Multiset.count_pos.mpr h; omega
      have hvs : 0 < s.toMul.count v := by omega
      rw [hdom v (Multiset.count_pos.mp hvs)] at hcmp
      exact Bool.false_ne_true hcmp
    · have hmem : w ∈ (Tree.siftInsert cmp v s p).toMul := by
        rw [hch]
        simp only [Tree.toMul_node, Multiset.mem_cons, Multiset.mem_add]
        rcases hu w hw with h | h
        · exact Or.inr (Or.inl h)
        · exact Or.inr (Or.inr h)
      rcases mem_toMul_siftInsert hmem with h | h
      · exact absurd h hwv
      · exact hdom w h
  exact ⟨hyv, hside cl (fun w hw => Or.inl hw), hside cr (fun w hw => Or.inr hw)⟩

/-- The upward heap adjustment after insertion preserves the heap property. -/
theorem siftInsert_heapOk {cmp} (hs : StrictCmp cmp) (v : Process) :
    ∀ (p : List Bool) (t : Tree), heapOk cmp t = true →
      heapOk cmp (Tree.siftInsert cmp v t p) = true := by
  intro p
  induction p with
  | nil => intro t _; simp [Tree.siftInsert, heapOk, rootCheck]
  | cons b p ih =>
    intro t hok
    cases t with
    | leaf => cases b <;> simp [Tree.siftInsert, heapOk]
    | node x l r =>
      have hok2 := hok
      simp only [heapOk, Bool.and_eq_true] at hok2
      obtain ⟨⟨⟨hcl, hcr⟩, hl⟩, hr⟩ := hok2
      have hdom_l : ∀ w, w ∈ l.toMul → cmp w x = false := fun w hw =>
        heap_subMin hs hok w (Multiset.mem_add.mpr (Or.inl hw))
      have hdom_r : ∀ w, w ∈ r.toMul → cmp w x = false := fun w hw =>
        heap_subMin hs hok w (Multiset.mem_add.mpr (Or.inr hw))
      cases b
      · have hins : Tree.siftInsert cmp v (Tree.node x l r) (false :: p) =
            match Tree.siftInsert cmp v l p with
            | Tree.leaf => Tree.node x Tree.leaf r
            | Tree.node y yl yr =>
              if cmp y x then Tree.node y (Tree.node x yl yr) r
              else Tree.node x (Tree.node y yl yr) r := rfl
        rw [hins]
        have hchild : heapOk cmp (Tree.siftInsert cmp v l p) = true := ih l hl
        rcases hch : Tree.siftInsert cmp v l p with _ | ⟨y, cl, cr⟩ <;> dsimp only
        · rw [heapOk_node_iff]
          exact ⟨rfl, hcr, rfl, hr⟩
        · rw [hch] at hchild
          rw [heapOk_node_iff] at hchild
          obtain ⟨hv_cl, hv_cr, hclh, hcrh⟩ := hchild
          by_cases hcmp2 : cmp y x = true
          · rw [if_pos hcmp2]
            obtain ⟨hyv2, hdcl, hdcr⟩ := siftInsert_swap_analysis hs p hdom_l hch hcmp2
            rw [hyv2] at hcmp2
            rw [hyv2, heapOk_node_iff]
            refine ⟨?_, ?_, ?_, hr⟩
            · rw [rootCheck_eq_true_iff]
              intro w hw
              simp only [Tree.root?, Option.some.injEq] at hw
              rw [← hw]
              exact hs.asym hcmp2
            · rw [rootCheck_eq_true_iff]
              intro w hw
              by_contra hwv
              simp only [Bool.not_eq_false] at hwv
              have h1 : cmp w x = true := hs.trans w v x hwv hcmp2
              rw [rootCheck_eq_true_iff.mp hcr w hw] at h1
              exact Bool.false_ne_true h1
            · rw [heapOk_node_iff]
              refine ⟨?_, ?_, hclh, hcrh⟩
              · rw [rootCheck_eq_true_iff]
                intro w hw
                exact hdcl w (Tree.root?_mem hw)
              · rw [rootCheck_eq_true_iff]
                intro w hw
                exact hdcr w (Tree.root?_mem hw)
          · rw [if_neg hcmp2]
            rw [heapOk_node_iff]
            have hf : cmp y x = false := by
              cases hb : cmp y x
              · rfl
              · exact absurd hb hcmp2
            refine ⟨?_, hcr, ?_, hr⟩
            · rw [rootCheck_eq_true_iff]
              intro w hw
              simp only [Tree.root?, Option.some.injEq] at hw
              rw [← hw]
              exact hf
            · rw [heapOk_node_iff]
              exact ⟨hv_cl, hv_cr, hclh, hcrh⟩
      · have hins : Tree.siftInsert cmp v (Tree.node x l r) (true :: p) =
            match Tree.siftInsert cmp v r p with
            | Tree.leaf => Tree.node x l Tree.leaf
            | Tree.node y yl yr =>
              if cmp y x then Tree.node y l (Tree.node x yl yr)
              else Tree.node x l (Tree.node y yl yr) := rfl
        rw [hins]
        have hchild : heapOk cmp (Tree.siftInsert cmp v r p) = true := ih r hr
        rcases hch : Tree.siftInsert cmp v r p with _ | ⟨y, cl, cr⟩ <;> dsimp only
        · rw [heapOk_node_iff]
          exact ⟨hcl, rfl, hl, rfl⟩
        · rw [hch] at hchild
          rw [heapOk_node_iff] at hchild
          obtain ⟨hv_cl, hv_cr, hclh, hcrh⟩ := hchild
          by_cases hcmp2 : cmp y x = true
          · rw [if_pos hcmp2]
            obtain ⟨hyv2, hdcl, hdcr⟩ := siftInsert_swap_analysis hs p hdom_r hch hcmp2
            rw [hyv2] at hcmp2
            rw [hyv2, heapOk_node_iff]
            refine ⟨?_, ?_, hl, ?_⟩
            · rw [rootCheck_eq_true_iff]
              intro w hw
              by_contra hwv
              simp only [Bool.not_eq_false] at hwv
              have h1 : cmp w x = true := hs.trans w v x hwv hcmp2
              rw [rootCheck_eq_true_iff.mp hcl w hw] at h1
              exact Bool.false_ne_true h1
            · rw [rootCheck_eq_true_iff]
              intro w hw
              simp only [Tree.root?, Option.some.injEq] at hw
              rw [← hw]
              exact hs.asym hcmp2
            · rw [heapOk_node_iff]
              refine ⟨?_, ?_, hclh, hcrh⟩
              · rw [rootCheck_eq_true_iff]
                intro w hw
                exact hdcl w (Tree.root?_mem hw)
              · rw [rootCheck_eq_true_iff]
                intro w hw
                exact hdcr w (Tree.root?_mem hw)
          · rw [if_neg hcmp2]
            rw [heapOk_node_iff]
            have hf : cmp y x = false := by
              cases hb : cmp y x
              · rfl
              · exact absurd hb hcmp2
            refine ⟨hcl, ?_, hl, ?_⟩
            · rw [rootCheck_eq_true_iff]
              intro w hw
              simp only [Tree.root?, Option.some.injEq] at hw
              rw [← hw]
              exact hf
            · rw [heapOk_node_iff]
              exact ⟨hv_cl, hv_cr, hclh, hcrh⟩

/-- `Priority_Enqueue` preserves the heap property. -/
theorem Priority_Enqueue_heapOk {cmp} (hs : StrictCmp cmp) (q : PQ) (v : Process)
    (h : heapOk cmp q.top = true) : heapOk cmp (Priority_Enqueue cmp q v).top = true := by
  unfold Priority_Enqueue
  split_ifs
  · simp [heapOk, rootCheck]
  · exact siftInsert_heapOk hs v _ q.top h

/-- `Priority_Dequeue` preserves the heap property. -/
theorem Priority_Dequeue_heapOk {cmp} (hs : StrictCmp cmp) (q : PQ)
    (h : heapOk cmp q.top = true) : heapOk cmp (Priority_Dequeue cmp q).top = true := by
  unfold Priority_Dequeue
  split_ifs with h0 h1
  · exact h
  · rfl
  · dsimp only
    have hrem : heapOk cmp (Tree.removeLast q.top (bitPath q.count)).2 = true :=
      removeLast_heapOk q.top (bitPath q.count) h
    rcases hv : (Tree.removeLast q.top (bitPath q.count)).1 with _ | v <;> dsimp only
    · exact hrem
    · apply siftDown_heapOk hs
      rcases ht : (Tree.removeLast q.top (bitPath q.count)).2 with _ | ⟨x, l, r⟩
      · exact trivial
      · rw [ht] at hrem
        rw [heapOk_node_iff] at hrem
        exact ⟨hrem.2.2.1, hrem.2.2.2⟩

/-- One driver step exercising the priority queue: `some p` enqueues `p`,
`none` dequeues. -/
def pqStep (cmp : Process → Process → Bool) (q : PQ) : Option Process → PQ
  | some p => Priority_Enqueue cmp q p
  | none => Priority_Dequeue cmp q

/-- Run an interleaved sequence of enqueues/dequeues from the empty queue. -/
def pqRun (cmp : Process → Process → Bool) (ops : List (Option Process)) : PQ :=
  ops.foldl (pqStep cmp) PQ.empty

theorem pqRun_heapOk {cmp} (hs : StrictCmp cmp) (ops : List (Option Process)) :
    heapOk cmp (pqRun cmp ops).top = true := by
  suffices h : ∀ q, heapOk cmp q.top = true →
      heapOk cmp (ops.foldl (pqStep cmp) q).top = true by
    exact h PQ.empty rfl
  induction ops with
  | nil => intro q h; exact h
  | cons op rest ih =>
    intro q h
    rw [List.foldl_cons]
    apply ih
    cases op with
    | none => exact Priority_Dequeue_heapOk hs q h
    | some p => exact Priority_Enqueue_heapOk hs q p h

/-- Claim C2: after any interleaved sequence of `Priority_Enqueue` and
`Priority_Dequeue` calls on a priority queue constructed with any of the four
comparators (`SJF_Compare`, `Priority_Compare`, `IO_Burst_Compare`,
`Simulator_ArrivalTime_Compare`), the stored elements satisfy the heap
property: at every parent/child pair, the child does not compare strictly
ahead of its parent under that comparator. -/
theorem heap_invariant_all_comparators (ops : List (Option Process)) :
    heapOk SJF_Compare (pqRun SJF_Compare ops).top = true ∧
    heapOk Priority_Compare (pqRun Priority_Compare ops).top = true ∧
    heapOk IO_Burst_Compare (pqRun IO_Burst_Compare ops).top = true ∧
    heapOk Simulator_ArrivalTime_Compare (pqRun Simulator_ArrivalTime_Compare ops).top = true :=
  ⟨pqRun_heapOk strictCmp_SJF ops, pqRun_heapOk strictCmp_Priority ops,
   pqRun_heapOk strictCmp_IO_Burst ops, pqRun_heapOk strictCmp_ArrivalTime ops⟩

/-! ## Simulation engine (`simulator.c`)

The C's `void *ready_queue` is chosen by scheduling policy at `Simulator_Init`
(`Queue_t` for FCFS/Round-Robin, `Priority_Queue_t` otherwise); the state is
therefore polymorphic in the ready-structure type `R`.  The global `rand()`
stream is modelled as a `List Bool` of fair binary samples consumed from the
front.  The `flag` field only selects which policy loop runs; each loop is a
separate definition here, and the `avg_*`/`max_waiting_time` output fields
(written only by `Simulator_Eval`, which starts from their zero-initialized
values) are returned by the pure `Simulator_Eval` below instead of being
stored. -/

/-- `UINT_MAX + 1`, the modulus of the C `unsigned int` counters. -/
def uintMod : Nat := 2 ^ 32

/-- Decrement of an `unsigned int`, wrapping around at zero. -/
def uintDec (n : Nat) : Nat := if n = 0 then uintMod - 1 else n - 1

/-- `Simulator_t` (minus the evaluation output fields, see above). -/
structure Sim (R : Type) where
  num_process : Nat
  generated_processes : PQ
  terminated_processes : PQ
  cur_cpu_burst : Option Process
  ready_queue : R
  waiting_queue : PQ
  elapsed_time : Nat
  idle_time : Nat
  rand : List Bool
deriving DecidableEq

/-- `Simulator_Probability`: draw 100 fair binary samples from the stream and
succeed iff at least 50 of them are 1; returns the outcome and the remaining
stream. -/
def Simulator_Probability (rand : List Bool) : Bool × List Bool :=
  (decide (50 ≤ (rand.take 100).count true), rand.drop 100)

/-- First while loop of `Simulator_LoadReadyQueue`: pop every job whose
`arrival_time` equals the current tick into the ready queue.  The loop
dequeues on every iteration, so `count` steps of fuel always suffice. -/
def drainArrivalsQ : Nat → PQ → Queue → Nat → PQ × Queue
  | 0, jq, rq, _ => (jq, rq)
  | fuel + 1, jq, rq, t =>
    match Priority_Top jq with
    | some p =>
      if p.arrival_time = t then
        drainArrivalsQ fuel (Priority_Dequeue Simulator_ArrivalTime_Compare jq)
          (Queue_Enqueue rq p) t
      else (jq, rq)
    | none => (jq, rq)

/-- Second while loop of `Simulator_LoadReadyQueue`: pop every waiting process
whose `io_burst_time` reached 0 into the ready queue. -/
def drainIOZeroQ : Nat → PQ → Queue → PQ × Queue
  | 0, wq, rq => (wq, rq)
  | fuel + 1, wq, rq =>
    match Priority_Top wq with
    | some p =>
      if p.io_burst_time = 0 then
        drainIOZeroQ fuel (Priority_Dequeue IO_Burst_Compare wq) (Queue_Enqueue rq p)
      else (wq, rq)
    | none => (wq, rq)

/-- `Simulator_LoadReadyQueue` (FCFS / Round-Robin ready queue). -/
def Simulator_LoadReadyQueue (s : Sim Queue) : Sim Queue :=
  let res1 := drainArrivalsQ s.generated_processes.count s.generated_processes
    s.ready_queue s.elapsed_time
  let res2 := drainIOZeroQ s.waiting_queue.count s.waiting_queue res1.2
  { s with generated_processes := res1.1, waiting_queue := res2.1, ready_queue := res2.2 }

/-- Job-arrival while loop of `Simulator_LoadReadyQueue_Priority`;
`rcmp` is the comparator the ready heap was constructed with. -/
def drainArrivalsP (rcmp : Process → Process → Bool) :
    Nat → PQ → PQ → Nat → PQ × PQ
  | 0, jq, rq, _ => (jq, rq)
  | fuel + 1, jq, rq, t =>
    match Priority_Top jq with
    | some p =>
      if p.arrival_time = t then
        drainArrivalsP rcmp fuel (Priority_Dequeue Simulator_ArrivalTime_Compare jq)
          (Priority_Enqueue rcmp rq p) t
      else (jq, rq)
    | none => (jq, rq)

/-- I/O-completion while loop of `Simulator_LoadReadyQueue_Priority`. -/
def drainIOZeroP (rcmp : Process → Process → Bool) : Nat → PQ → PQ → PQ × PQ
  | 0, wq, rq => (wq, rq)
  | fuel + 1, wq, rq =>
    match Priority_Top wq with
    | some p =>
      if p.io_burst_time = 0 then
        drainIOZeroP rcmp fuel (Priority_Dequeue IO_Burst_Compare wq)
          (Priority_Enqueue rcmp rq p)
      else (wq, rq)
    | none => (wq, rq)

/-- `Simulator_LoadReadyQueue_Priority` (heap-backed ready queue). -/
def Simulator_LoadReadyQueue_Priority (rcmp : Process → Process → Bool)
    (s : Sim PQ) : Sim PQ :=
  let res1 := drainArrivalsP rcmp s.generated_processes.count s.generated_processes
    s.ready_queue s.elapsed_time
  let res2 := drainIOZeroP rcmp s.waiting_queue.count s.waiting_queue res1.2
  { s with generated_processes := res1.1, waiting_queue := res2.1, ready_queue := res2.2 }

/-- `Simulator_LoadProcess`: if the CPU slot is empty, pop the front of the
FIFO ready queue into it. -/
def Simulator_LoadProcess (s : Sim Queue) : Sim Queue :=
  match s.cur_cpu_burst with
  | some _ => s
  | none =>
    if Queue_IsEmpty s.ready_queue then s
    else { s with cur_cpu_burst := Queue_Front s.ready_queue,
                  ready_queue := Queue_Dequeue s.ready_queue }

/-- `Simulator_LoadProcess_Priority`: if the CPU slot is empty, pop the heap
top into it. -/
def Simulator_LoadProcess_Priority (rcmp : Process → Process → Bool)
    (s : Sim PQ) : Sim PQ :=
  match s.cur_cpu_burst with
  | some _ => s
  | none =>
    if Priority_IsEmpty s.ready_queue then s
    else { s with cur_cpu_burst := Priority_Top s.ready_queue,
                  ready_queue := Priority_Dequeue rcmp s.ready_queue }

/-- `Simulator_Queue_Waiting`: every process in the FIFO ready queue gets
`waiting_time += 1` and `turnaround_time += 1`. -/
def Simulator_Queue_Waiting (q : Queue) : Queue :=
  { q with items := q.items.map fun p =>
      { p with waiting_time := p.waiting_time + 1, turnaround_time := p.turnaround_time + 1 } }

/-- `Simulator_Priority_Waiting`: the same bulk update over the ready heap's
tree (the C's in-order traversal; the update is order-independent). -/
def Simulator_Priority_Waiting : Tree → Tree
  | .leaf => .leaf
  | .node p l r =>
    .node { p with waiting_time := p.waiting_time + 1, turnaround_time := p.turnaround_time + 1 }
      (Simulator_Priority_Waiting l) (Simulator_Priority_Waiting r)

/-- The per-process update of the I/O advance step: `io_burst_time--` on an
`unsigned int` (wrapping at zero), `turnaround_time++`. -/
def ioAdvUpd (p : Process) : Process :=
  { p with io_burst_time := uintDec p.io_burst_time,
           turnaround_time := p.turnaround_time + 1 }

/-- `Simulator_Process_IO` (named `Simulator_Process_IO_Adv` here): decrement
`io_burst_time` and increment `turnaround_time` of every process in the
waiting heap's tree (the C's in-order traversal; order-independent). -/
def Simulator_Process_IO_Adv : Tree → Tree
  | .leaf => .leaf
  | .node p l r =>
    .node (ioAdvUpd p) (Simulator_Process_IO_Adv l) (Simulator_Process_IO_Adv r)

/-- The while loop of `Simulator_Process_IO_Queue`: for each successive top of
the waiting heap, draw the probability (always consuming 100 samples), and
move the process to the FIFO ready queue when the trial succeeds and
`cpu_burst_time > 1`, otherwise into the replacement heap `tmp`. -/
def ioInterruptLoopQ : Nat → PQ → Queue → PQ → List Bool → PQ × Queue × PQ × List Bool
  | 0, wq, rq, tmp, rand => (wq, rq, tmp, rand)
  | fuel + 1, wq, rq, tmp, rand =>
    match Priority_Top wq with
    | none => (wq, rq, tmp, rand)
    | some p =>
      let res := Simulator_Probability rand
      if res.1 && decide (1 < p.cpu_burst_time) then
        ioInterruptLoopQ fuel (Priority_Dequeue IO_Burst_Compare wq) (Queue_Enqueue rq p)
          tmp res.2
      else
        ioInterruptLoopQ fuel (Priority_Dequeue IO_Burst_Compare wq) rq
          (Priority_Enqueue IO_Burst_Compare tmp p) res.2

/-- `Simulator_Process_IO_Queue`: random I/O interrupt resolution for the
FIFO-ready policies; the waiting heap is replaced by the rebuilt `tmp` heap
(constructed with `IO_Burst_Compare`, as in `Priority_Init(&tmp,
IO_Burst_Compare)`). -/
def Simulator_Process_IO_Queue (s : Sim Queue) : Sim Queue :=
  if Priority_IsEmpty s.waiting_queue then s
  else
    let res := ioInterruptLoopQ s.waiting_queue.count s.waiting_queue s.ready_queue
      PQ.empty s.rand
    { s with waiting_queue := res.2.2.1, ready_queue := res.2.1, rand := res.2.2.2 }

/-- The while loop of `Simulator_Process_IO_Priority` (heap-backed ready
queue, comparator `rcmp`). -/
def ioInterruptLoopP (rcmp : Process → Process → Bool) :
    Nat → PQ → PQ → PQ → List Bool → PQ × PQ × PQ × List Bool
  | 0, wq, rq, tmp, rand => (wq, rq, tmp, rand)
  | fuel + 1, wq, rq, tmp, rand =>
    match Priority_Top wq with
    | none => (wq, rq, tmp, rand)
    | some p =>
      let res := Simulator_Probability rand
      if res.1 && decide (1 < p.cpu_burst_time) then
        ioInterruptLoopP rcmp fuel (Priority_Dequeue IO_Burst_Compare wq)
          (Priority_Enqueue rcmp rq p) tmp res.2
      else
        ioInterruptLoopP rcmp fuel (Priority_Dequeue IO_Burst_Compare wq) rq
          (Priority_Enqueue IO_Burst_Compare tmp p) res.2

/-- `Simulator_Process_IO_Priority`. -/
def Simulator_Process_IO_Priority (rcmp : Process → Process → Bool)
    (s : Sim PQ) : Sim PQ :=
  if Priority_IsEmpty s.waiting_queue then s
  else
    let res := ioInterruptLoopP rcmp s.waiting_queue.count s.waiting_queue s.ready_queue
      PQ.empty s.rand
    { s with waiting_queue := res.2.2.1, ready_queue := res.2.1, rand := res.2.2.2 }

/-- `Simulator_CPU_Burst`: execute one CPU tick.  Returns the new state and
whether every process has now terminated (the C's return value 1).
With a running process: `cpu_burst_time--`, `turnaround_time++`; if the burst
is exhausted the process moves to `terminated_processes`; otherwise, if it
still has I/O work and (`cpu_burst_time == 1` or — short-circuit — the random
trial fires) it moves to the waiting heap.  With an empty slot: `idle_time++`. -/
def Simulator_CPU_Burst {R : Type} (s : Sim R) : Sim R × Bool :=
  match s.cur_cpu_burst with
  | some p0 =>
    let p := { p0 with cpu_burst_time := p0.cpu_burst_time - 1,
                       turnaround_time := p0.turnaround_time + 1 }
    if p.cpu_burst_time ≠ 0 then
      if p.io_burst_time ≠ 0 then
        if p.cpu_burst_time = 1 then
          ({ s with waiting_queue := Priority_Enqueue IO_Burst_Compare s.waiting_queue p,
                    cur_cpu_burst := none }, false)
        else
          let res := Simulator_Probability s.rand
          if res.1 then
            ({ s with waiting_queue := Priority_Enqueue IO_Burst_Compare s.waiting_queue p,
                      cur_cpu_burst := none, rand := res.2 }, false)
          else ({ s with cur_cpu_burst := some p, rand := res.2 }, false)
      else ({ s with cur_cpu_burst := some p }, false)
    else
      let s2 := { s with
        terminated_processes :=
          Priority_Enqueue Simulator_ArrivalTime_Compare s.terminated_processes p,
        cur_cpu_burst := none }
      (s2, decide (s2.terminated_processes.count = s2.num_process))
  | none => ({ s with idle_time := s.idle_time + 1 }, false)

/-- `Simulator_CPU_Burst_Preemptive`: first, if a process is running and the
ready heap's top compares strictly ahead of it under the ready comparator
`rcmp`, push the running process back into the ready heap and load the new
top; then execute one CPU tick exactly as `Simulator_CPU_Burst` (the C
increments `turnaround_time` before decrementing `cpu_burst_time` here; the
resulting record is the same). -/
def Simulator_CPU_Burst_Preemptive (rcmp : Process → Process → Bool)
    (s : Sim PQ) : Sim PQ × Bool :=
  let s1 :=
    match s.cur_cpu_burst, Priority_Top s.ready_queue with
    | some cur, some top =>
      if rcmp top cur then
        Simulator_LoadProcess_Priority rcmp
          { s with ready_queue := Priority_Enqueue rcmp s.ready_queue cur,
                   cur_cpu_burst := none }
      else s
    | _, _ => s
  match s1.cur_cpu_burst with
  | some p0 =>
    let p := { p0 with turnaround_time := p0.turnaround_time + 1,
                       cpu_burst_time := p0.cpu_burst_time - 1 }
    if p.cpu_burst_time ≠ 0 then
      if p.io_burst_time ≠ 0 then
        if p.cpu_burst_time = 1 then
          ({ s1 with waiting_queue := Priority_Enqueue IO_Burst_Compare s1.waiting_queue p,
                     cur_cpu_burst := none }, false)
        else
          let res := Simulator_Probability s1.rand
          if res.1 then
            ({ s1 with waiting_queue := Priority_Enqueue IO_Burst_Compare s1.waiting_queue p,
                       cur_cpu_burst := none, rand := res.2 }, false)
          else ({ s1 with cur_cpu_burst := some p, rand := res.2 }, false)
      else ({ s1 with cur_cpu_burst := some p }, false)
    else
      let s2 := { s1 with
        terminated_processes :=
          Priority_Enqueue Simulator_ArrivalTime_Compare s1.terminated_processes p,
        cur_cpu_burst := none }
      (s2, decide (s2.terminated_processes.count = s2.num_process))
  | none => ({ s1 with idle_time := s1.idle_time + 1 }, false)

/-- One iteration of the `Simulator_FCFS` while loop (without the final
`elapsed_time++`). -/
def Simulator_FCFS_Tick (s : Sim Queue) : Sim Queue × Bool :=
  let s1 := Simulator_LoadReadyQueue s
  let s2 := Simulator_LoadProcess s1
  let s3 := { s2 with ready_queue := Simulator_Queue_Waiting s2.ready_queue }
  let s4 := { s3 with waiting_queue :=
    { s3.waiting_queue with top := Simulator_Process_IO_Adv s3.waiting_queue.top } }
  let s5 := Simulator_Process_IO_Queue s4
  Simulator_CPU_Burst s5

/-- `Simulator_FCFS`: run the FCFS loop for at most `fuel` ticks, returning
the final state when every process terminates within the budget. -/
def Simulator_FCFS : Nat → Sim Queue → Option (Sim Queue)
  | 0, _ => none
  | fuel + 1, s =>
    let res := Simulator_FCFS_Tick s
    if res.2 then some res.1
    else Simulator_FCFS fuel { res.1 with elapsed_time := res.1.elapsed_time + 1 }

/-- The five sub-steps of a `Simulator_PreemptiveSJF` loop iteration that
precede `Simulator_CPU_Burst_Preemptive`: admit arrivals and finished I/O,
dispatch into an empty CPU slot, age the ready heap, advance I/O, resolve
random I/O interrupts. -/
def Simulator_PSJF_PreSteps (s : Sim PQ) : Sim PQ :=
  let s1 := Simulator_LoadReadyQueue_Priority SJF_Compare s
  let s2 := Simulator_LoadProcess_Priority SJF_Compare s1
  let s3 := { s2 with ready_queue :=
    { s2.ready_queue with top := Simulator_Priority_Waiting s2.ready_queue.top } }
  let s4 := { s3 with waiting_queue :=
    { s3.waiting_queue with top := Simulator_Process_IO_Adv s3.waiting_queue.top } }
  Simulator_Process_IO_Priority SJF_Compare s4

/-- One iteration of the `Simulator_PreemptiveSJF` while loop (without the
final `elapsed_time++`). -/
def Simulator_PreemptiveSJF_Tick (s : Sim PQ) : Sim PQ × Bool :=
  Simulator_CPU_Burst_Preemptive SJF_Compare (Simulator_PSJF_PreSteps s)

/-- One full iteration of the `Simulator_PreemptiveSJF` loop including the
`elapsed_time++` taken when the simulation has not terminated. -/
def Simulator_PreemptiveSJF_Step (s : Sim PQ) : Sim PQ :=
  let res := Simulator_PreemptiveSJF_Tick s
  if res.2 then res.1 else { res.1 with elapsed_time := res.1.elapsed_time + 1 }

/-- The order in which `Simulator_Eval`'s while loop visits the terminated
processes: successive tops of the heap. -/
def pqDrain (cmp : Process → Process → Bool) : Nat → PQ → List Process
  | 0, _ => []
  | fuel + 1, q =>
    match Priority_Top q with
    | none => []
    | some p => p :: pqDrain cmp fuel (Priority_Dequeue cmp q)

/-- The outputs of `Simulator_Eval`. -/
structure EvalResult where
  cpu_utilization : Option ℚ
  avg_waiting_time : Option ℚ
  avg_turnaround_time : Option ℚ
  max_waiting_time : Nat
deriving DecidableEq

/-- `Simulator_Eval`: CPU utilization `(elapsed_time + 1 - idle_time) /
elapsed_time`; drain `terminated_processes` summing `waiting_time` and
`turnaround_time` and tracking the maximum waiting time (from the
zero-initialized field), then divide both sums by `num_process`.  The C
performs the divisions unconditionally on `double`s; a zero divisor — a
division by zero in the C — is modelled as `none`. -/
def Simulator_Eval {R : Type} (s : Sim R) : EvalResult :=
  let drained := pqDrain Simulator_ArrivalTime_Compare s.terminated_processes.count
    s.terminated_processes
  let wsum : Nat := (drained.map Process.waiting_time).sum
  let usum : Nat := (drained.map Process.turnaround_time).sum
  { cpu_utilization :=
      if s.elapsed_time = 0 then none
      else some (((s.elapsed_time + 1 - s.idle_time : Nat) : ℚ) / (s.elapsed_time : ℚ))
    avg_waiting_time :=
      if s.num_process = 0 then none else some ((wsum : ℚ) / (s.num_process : ℚ))
    avg_turnaround_time :=
      if s.num_process = 0 then none else some ((usum : ℚ) / (s.num_process : ℚ))
    max_waiting_time := drained.foldl (fun m p => max m p.waiting_time) 0 }

/-- The CPU utilization printed per policy in `Simulator_Terminate`'s final
comparison table: `(elapsed_time - idle_time) / elapsed_time` (without the
`+ 1` used in `Simulator_Eval`); a zero divisor is modelled as `none`. -/
def Simulator_Terminate_Utilization {R : Type} (s : Sim R) : Option ℚ :=
  if s.elapsed_time = 0 then none
  else some (((s.elapsed_time - s.idle_time : Nat) : ℚ) / (s.elapsed_time : ℚ))

/-- `Simulator_Init` (for a FIFO-ready policy) followed by
`Simulator_GenerateProcess` cloning the given workload into the job queue, with
a given random-sample stream. -/
def simInitQ (workload : List Process) (rand : List Bool) : Sim Queue :=
  { num_process := workload.length
    generated_processes :=
      workload.foldl (Priority_Enqueue Simulator_ArrivalTime_Compare) PQ.empty
    terminated_processes := PQ.empty
    cur_cpu_burst := none
    ready_queue := Queue.empty
    waiting_queue := PQ.empty
    elapsed_time := 0
    idle_time := 0
    rand := rand }

/-- `Simulator_Init` (for a heap-ready policy) followed by
`Simulator_GenerateProcess` cloning the given workload into the job queue. -/
def simInitP (workload : List Process) (rand : List Bool) : Sim PQ :=
  { num_process := workload.length
    generated_processes :=
      workload.foldl (Priority_Enqueue Simulator_ArrivalTime_Compare) PQ.empty
    terminated_processes := PQ.empty
    cur_cpu_burst := none
    ready_queue := PQ.empty
    waiting_queue := PQ.empty
    elapsed_time := 0
    idle_time := 0
    rand := rand }

/-! ## Concrete workloads used by the run-based claims -/

/-- Scenario A's single process: `cpu_burst_time=5, io_burst_time=0,
arrival_time=0, priority=0`. -/
def procA : Process := ⟨1, 5, 0, 0, 0, 0, 0⟩

/-- Claim C9: the FCFS simulation over the single-process workload `procA`
terminates the process with `waiting_time = 0` and `turnaround_time = 5`, and
the simulation ends with `elapsed_time = 4` and `idle_time = 0`.  A process
with `io_burst_time = 0` never triggers a probability draw, so the run is the
same for every random-sample stream; the theorem exhibits it on the empty
stream and on a 600-sample all-ones stream. -/
theorem scenarioA_fcfs :
    (Simulator_FCFS 10 (simInitQ [procA] [])).map
      (fun s => (s.elapsed_time, s.idle_time, Priority_Top s.terminated_processes)) =
      some (4, 0, some ⟨1, 0, 0, 0, 0, 0, 5⟩) ∧
    (Simulator_FCFS 10 (simInitQ [procA] (List.replicate 600 true))).map
      (fun s => (s.elapsed_time, s.idle_time, Priority_Top s.terminated_processes)) =
      some (4, 0, some ⟨1, 0, 0, 0, 0, 0, 5⟩) := by
  decide

/-- The degenerate workload for claim C5: one process whose whole CPU burst
fits in the very first tick, so the simulation terminates with
`elapsed_time = 0`. -/
def procB : Process := ⟨1, 1, 0, 0, 0, 0, 0⟩

/-- Claim C5 (the code as written): the FCFS run over `procB` reaches
`Simulator_Eval` with `elapsed_time = 0`, and the evaluation's CPU-utilization
division has a zero divisor (`none` models the C's unguarded division by
zero), instead of the required guarded zero report. -/
theorem eval_divides_by_zero_on_instant_workload :
    (Simulator_FCFS 5 (simInitQ [procB] [])).map
      (fun s => (s.elapsed_time, (Simulator_Eval s).cpu_utilization)) =
    some (0, none) := rfl

/-- The final state of the Scenario-A FCFS run (claim C4's concrete input). -/
def simA : Sim Queue :=
  (Simulator_FCFS 10 (simInitQ [procA] [])).getD (simInitQ [procA] [])

/-- Claim C4, counterexample: at the terminated Scenario-A state
(`elapsed_time = 4`, `idle_time = 0`), the comparison table of
`Simulator_Terminate` does not report `(elapsed_time + 1 - idle_time) /
elapsed_time`: it prints `4/4 = 1`, not `5/4`. -/
theorem terminate_table_differs_from_eval_formula :
    ¬ (Simulator_Terminate_Utilization simA =
      some (((simA.elapsed_time + 1 - simA.idle_time : Nat) : ℚ) /
        (simA.elapsed_time : ℚ))) := by
  have h1 : simA.elapsed_time = 4 := by decide
  have h2 : simA.idle_time = 0 := by decide
  simp only [Simulator_Terminate_Utilization, h1, h2]
  norm_num

/-- Claim C4, amended: at evaluation the CPU utilization is
`(elapsed_time + 1 - idle_time) / elapsed_time`, while the final comparison
table reports `(elapsed_time - idle_time) / elapsed_time` (without the `+1`),
whenever `elapsed_time` is nonzero. -/
theorem eval_and_table_utilization {R : Type} (s : Sim R) (h : s.elapsed_time ≠ 0) :
    (Simulator_Eval s).cpu_utilization =
      some (((s.elapsed_time + 1 - s.idle_time : Nat) : ℚ) / (s.elapsed_time : ℚ)) ∧
    Simulator_Terminate_Utilization s =
      some (((s.elapsed_time - s.idle_time : Nat) : ℚ) / (s.elapsed_time : ℚ)) := by
  constructor <;> simp [Simulator_Eval, Simulator_Terminate_Utilization, h]

theorem eval_and_table_utilization_witness :
    simA.elapsed_time ≠ 0 ∧
    ((Simulator_Eval simA).cpu_utilization =
      some (((simA.elapsed_time + 1 - simA.idle_time : Nat) : ℚ) / (simA.elapsed_time : ℚ)) ∧
    Simulator_Terminate_Utilization simA =
      some (((simA.elapsed_time - simA.idle_time : Nat) : ℚ) / (simA.elapsed_time : ℚ))) :=
  ⟨by decide, eval_and_table_utilization simA (by decide)⟩

/-- Claim C1's two-process Preemptive-SJF workload: P1 arrives at tick 0 with
burst 5; P2 arrives at tick 1 with burst 2 and preempts P1. -/
def simC1 : Sim PQ := simInitP [⟨1, 5, 0, 0, 0, 0, 0⟩, ⟨2, 2, 0, 1, 0, 0, 0⟩] []

/-- Claim C1 (the code as written): under Preemptive SJF, after two loop
iterations (`elapsed_time = 2`) nothing has terminated yet, and the third
iteration — the tick with `elapsed_time = 2` — terminates P2 with
`turnaround_time = 3`; but P2 arrived at tick 1 and terminated at tick 2, so
the number of ticks between its arrival and its termination tick is
`2 - 1 + 1 = 2`, not 3.  (During the preemption tick P2 was aged in the ready
heap and then also executed, receiving two turnaround increments, while the
preempted P1 received none.) -/
theorem psjf_turnaround_miscount :
    (Simulator_PreemptiveSJF_Step^[2] simC1).elapsed_time = 2 ∧
    Priority_Top (Simulator_PreemptiveSJF_Step^[2] simC1).terminated_processes = none ∧
    Priority_Top (Simulator_PreemptiveSJF_Step^[3] simC1).terminated_processes =
      some ⟨2, 0, 0, 1, 0, 1, 3⟩ ∧
    (⟨2, 0, 0, 1, 0, 1, 3⟩ : Process).turnaround_time ≠ 2 - 1 + 1 := by
  decide

/-! ## Claim C3: where the preemption decision happens in a tick -/

/-- The tick the claim describes: preemption resolved in the Dispatch/Preempt
sub-step, before the aging of ready processes, before the I/O advance and
before random I/O interrupt resolution.  This definition follows the claim's
wording and exists only to be compared against `Simulator_PreemptiveSJF_Tick`,
the tick the code actually performs. -/
def PSJF_Tick_DispatchPreempt (s : Sim PQ) : Sim PQ × Bool :=
  let s1 := Simulator_LoadReadyQueue_Priority SJF_Compare s
  let s2 := Simulator_LoadProcess_Priority SJF_Compare s1
  let s2b :=
    match s2.cur_cpu_burst, Priority_Top s2.ready_queue with
    | some cur, some top =>
      if SJF_Compare top cur then
        Simulator_LoadProcess_Priority SJF_Compare
          { s2 with ready_queue := Priority_Enqueue SJF_Compare s2.ready_queue cur,
                    cur_cpu_burst := none }
      else s2
    | _, _ => s2
  let s3 := { s2b with ready_queue :=
    { s2b.ready_queue with top := Simulator_Priority_Waiting s2b.ready_queue.top } }
  let s4 := { s3 with waiting_queue :=
    { s3.waiting_queue with top := Simulator_Process_IO_Adv s3.waiting_queue.top } }
  let s5 := Simulator_Process_IO_Priority SJF_Compare s4
  Simulator_CPU_Burst s5

/-- A mid-run Preemptive-SJF state about to preempt: P1 (burst 4) is running,
P2 (burst 2) heads the ready heap. -/
def stC3 : Sim PQ :=
  { num_process := 2
    generated_processes := PQ.empty
    terminated_processes := PQ.empty
    cur_cpu_burst := some ⟨1, 4, 0, 0, 0, 0, 1⟩
    ready_queue := { count := 1, top := Tree.node ⟨2, 2, 0, 1, 0, 0, 0⟩ Tree.leaf Tree.leaf }
    waiting_queue := PQ.empty
    elapsed_time := 1
    idle_time := 0
    rand := [] }

/-- Claim C3, counterexample: the code's Preemptive-SJF tick differs, at the
state `stC3`, from the tick that resolves preemption in the Dispatch/Preempt
sub-step before aging: the code ages the preempting process P2 in the ready
heap (so P2 gains the waiting/turnaround increment of that tick) and never
ages the preempted P1, while under the claimed ordering P1 is back in the
ready heap during aging and receives the increment instead. -/
theorem psjf_tick_not_dispatch_preempt :
    Simulator_PreemptiveSJF_Tick stC3 ≠ PSJF_Tick_DispatchPreempt stC3 := by
  decide

/-- In `Simulator_CPU_Burst_Preemptive`, when a process is running and the
ready top compares strictly ahead of it, the whole call equals: requeue the
running process, reload the CPU slot from the heap, then execute a plain
(non-preemptive) `Simulator_CPU_Burst` tick. -/
theorem cpu_burst_preemptive_preempts (rcmp : Process → Process → Bool)
    (t : Sim PQ) (c p : Process)
    (h1 : t.cur_cpu_burst = some c) (h2 : Priority_Top t.ready_queue = some p)
    (h3 : rcmp p c = true) :
    Simulator_CPU_Burst_Preemptive rcmp t =
      Simulator_CPU_Burst (Simulator_LoadProcess_Priority rcmp
        { t with ready_queue := Priority_Enqueue rcmp t.ready_queue c,
                 cur_cpu_burst := none }) := by
  unfold Simulator_CPU_Burst_Preemptive
  rw [h1, h2]
  dsimp only
  rw [if_pos h3]
  rfl

/-- Claim C3, amended: in the code, the preemption decision is made at the
start of the Execute-CPU sub-step (`Simulator_CPU_Burst_Preemptive`), i.e.
after the aging of ready processes, after the I/O advance and after random
I/O interrupt resolution of the same tick: whenever the post-sub-step state
has a running process and a ready head strictly ahead of it, the code's tick
equals requeue-running, reload from the heap, then a plain CPU-burst
execution. -/
theorem psjf_preempt_in_execute_substep (s : Sim PQ) (c p : Process)
    (h1 : (Simulator_PSJF_PreSteps s).cur_cpu_burst = some c)
    (h2 : Priority_Top (Simulator_PSJF_PreSteps s).ready_queue = some p)
    (h3 : SJF_Compare p c = true) :
    Simulator_PreemptiveSJF_Tick s =
      Simulator_CPU_Burst (Simulator_LoadProcess_Priority SJF_Compare
        { Simulator_PSJF_PreSteps s with
            ready_queue :=
              Priority_Enqueue SJF_Compare (Simulator_PSJF_PreSteps s).ready_queue c,
            cur_cpu_burst := none }) := by
  unfold Simulator_PreemptiveSJF_Tick
  exact cpu_burst_preemptive_preempts SJF_Compare (Simulator_PSJF_PreSteps s) c p h1 h2 h3

theorem psjf_preempt_in_execute_substep_witness :
    ((Simulator_PSJF_PreSteps stC3).cur_cpu_burst = some ⟨1, 4, 0, 0, 0, 0, 1⟩ ∧
     Priority_Top (Simulator_PSJF_PreSteps stC3).ready_queue = some ⟨2, 2, 0, 1, 0, 1, 1⟩ ∧
     SJF_Compare ⟨2, 2, 0, 1, 0, 1, 1⟩ ⟨1, 4, 0, 0, 0, 0, 1⟩ = true) ∧
    Simulator_PreemptiveSJF_Tick stC3 =
      Simulator_CPU_Burst (Simulator_LoadProcess_Priority SJF_Compare
        { Simulator_PSJF_PreSteps stC3 with
            ready_queue := Priority_Enqueue SJF_Compare
              (Simulator_PSJF_PreSteps stC3).ready_queue ⟨1, 4, 0, 0, 0, 0, 1⟩,
            cur_cpu_burst := none }) :=
  ⟨⟨by decide, by decide, by decide⟩,
    psjf_preempt_in_execute_substep stC3 ⟨1, 4, 0, 0, 0, 0, 1⟩ ⟨2, 2, 0, 1, 0, 1, 1⟩
      (by decide) (by decide) (by decide)⟩

/-! ## Claim C7: the uniform I/O decrement preserves the heap order -/

/-- Decrementing the I/O bursts of two processes (both positive, so the
unsigned decrement does not wrap) does not change how they compare under
`IO_Burst_Compare`: the shift is uniform and the pid tie-break is untouched. -/
theorem io_cmp_ioAdvUpd (a b : Process) (ha : 1 ≤ a.io_burst_time)
    (hb : 1 ≤ b.io_burst_time) :
    IO_Burst_Compare (ioAdvUpd a) (ioAdvUpd b) = IO_Burst_Compare a b := by
  have ha2 : uintDec a.io_burst_time = a.io_burst_time - 1 := by
    unfold uintDec; rw [if_neg (by omega)]
  have hb2 : uintDec b.io_burst_time = b.io_burst_time - 1 := by
    unfold uintDec; rw [if_neg (by omega)]
  unfold IO_Burst_Compare ioAdvUpd
  dsimp only
  rw [ha2, hb2]
  by_cases h : a.io_burst_time = b.io_burst_time
  · rw [h]
    simp
  · rw [if_pos (by omega : a.io_burst_time - 1 ≠ b.io_burst_time - 1),
      if_pos (by omega : a.io_burst_time ≠ b.io_burst_time)]
    simp only [decide_eq_decide]
    omega

/-- Claim C7: the Advance-I/O sub-step (`Simulator_Process_IO`, modelled by
`Simulator_Process_IO_Adv`) — the uniform decrement of `io_burst_time` over
every process stored in the waiting heap — preserves the heap-order property
under `IO_Burst_Compare` at every parent/child pair, so no re-heapify is
needed after it.  The hypothesis that every stored I/O burst is at least 1
(which claim C10 establishes at the point the step runs) rules out the
unsigned wraparound at zero. -/
theorem io_advance_preserves_heap :
    ∀ (t : Tree), heapOk IO_Burst_Compare t = true →
      (∀ p, p ∈ t.toMul → 1 ≤ p.io_burst_time) →
      heapOk IO_Burst_Compare (Simulator_Process_IO_Adv t) = true := by
  intro t
  induction t with
  | leaf => intro _ _; rfl
  | node x l r ihl ihr =>
    intro hok hpos
    rw [heapOk_node_iff] at hok
    obtain ⟨h1, h2, h3, h4⟩ := hok
    have hx : 1 ≤ x.io_burst_time := hpos x (by simp [Tree.toMul_node])
    have hposl : ∀ p, p ∈ l.toMul → 1 ≤ p.io_burst_time := fun p hp =>
      hpos p (by
        simp only [Tree.toMul_node, Multiset.mem_cons, Multiset.mem_add]
        exact Or.inr (Or.inl hp))
    have hposr : ∀ p, p ∈ r.toMul → 1 ≤ p.io_burst_time := fun p hp =>
      hpos p (by
        simp only [Tree.toMul_node, Multiset.mem_cons, Multiset.mem_add]
        exact Or.inr (Or.inr hp))
    show heapOk _ (Tree.node (ioAdvUpd x) (Simulator_Process_IO_Adv l)
      (Simulator_Process_IO_Adv r)) = true
    rw [heapOk_node_iff]
    refine ⟨?_, ?_, ihl h3 hposl, ihr h4 hposr⟩
    · cases l with
      | leaf => rfl
      | node y yl yr =>
        rw [rootCheck_eq_true_iff]
        intro w hw
        simp only [Simulator_Process_IO_Adv, Tree.root?, Option.some.injEq] at hw
        rw [← hw]
        have hy : 1 ≤ y.io_burst_time := hposl y (by simp [Tree.toMul_node])
        rw [io_cmp_ioAdvUpd y x hy hx]
        exact rootCheck_eq_true_iff.mp h1 y rfl
    · cases r with
      | leaf => rfl
      | node y yl yr =>
        rw [rootCheck_eq_true_iff]
        intro w hw
        simp only [Simulator_Process_IO_Adv, Tree.root?, Option.some.injEq] at hw
        rw [← hw]
        have hy : 1 ≤ y.io_burst_time := hposr y (by simp [Tree.toMul_node])
        rw [io_cmp_ioAdvUpd y x hy hx]
        exact rootCheck_eq_true_iff.mp h2 y rfl

/-- A two-process waiting heap with positive I/O bursts. -/
def tC7 : Tree :=
  Tree.node ⟨1, 3, 2, 0, 0, 0, 0⟩ (Tree.node ⟨2, 4, 5, 0, 0, 0, 0⟩ Tree.leaf Tree.leaf)
    Tree.leaf

theorem io_advance_preserves_heap_witness :
    (heapOk IO_Burst_Compare tC7 = true ∧ ∀ p, p ∈ tC7.toMul → 1 ≤ p.io_burst_time) ∧
    heapOk IO_Burst_Compare (Simulator_Process_IO_Adv tC7) = true :=
  ⟨⟨by decide, by decide⟩, io_advance_preserves_heap tC7 (by decide) (by decide)⟩

/-! ## Completeness of the stored trees

`Priority_Enqueue`/`Priority_Dequeue` navigate by the bits of `count`, which
is correct because the stored tree is always the complete tree with exactly
`count` nodes (`pqWF`).  The lemmas below prove that the operations preserve
this shape and, with it, the exact multiset of stored processes — the facts
claims C6 and C10 need. -/

theorem idxAfter_append (i : Nat) (p q : List Bool) :
    idxAfter i (p ++ q) = idxAfter (idxAfter i p) q := by
  induction p generalizing i with
  | nil => rfl
  | cons b p ih => simp [idxAfter, ih]

theorem idxAfter_ge (i : Nat) (p : List Bool) : i ≤ idxAfter i p := by
  induction p generalizing i with
  | nil => exact le_rfl
  | cons b p ih =>
    have h := ih (if b then 2 * i + 1 else 2 * i)
    simp only [idxAfter]
    cases b <;> simp at h ⊢ <;> omega

theorem idxAfter_cons_ge (i : Nat) (b : Bool) (p : List Bool) :
    2 * i ≤ idxAfter i (b :: p) := by
  have h := idxAfter_ge (if b then 2 * i + 1 else 2 * i) p
  simp only [idxAfter]
  cases b <;> simp at h ⊢ <;> omega

/-- Following the bit path of `n` from the root index 1 arrives at index `n`:
the C's `pos` navigation loops reach heap position `n`. -/
theorem idxAfter_bitPath : ∀ n, 1 ≤ n → idxAfter 1 (bitPath n) = n := by
  intro n
  induction n using Nat.strong_induction_on with
  | _ n ih =>
    intro hn
    rw [bitPath_eq]
    split_ifs with h1
    · simp only [idxAfter]; omega
    · rw [idxAfter_append, ih (n / 2) (by omega) (by omega)]
      simp only [idxAfter]
      by_cases hpar : n % 2 = 1
      · rw [if_pos (by simp [hpar])]
        omega
      · rw [if_neg (by simp [hpar])]
        omega

theorem completeIdx_node (x : Process) (l r : Tree) (i n : Nat) :
    completeIdx (Tree.node x l r) i n =
      (decide (i ≤ n) && completeIdx l (2 * i) n && completeIdx r (2 * i + 1) n) := rfl

theorem completeIdx_leaf_iff {t : Tree} {i n : Nat} (h : completeIdx t i n = true) :
    t = Tree.leaf ↔ n < i := by
  cases t with
  | leaf =>
    simp only [completeIdx, decide_eq_true_eq] at h
    simp [h]
  | node x l r =>
    rw [completeIdx_node] at h
    simp only [Bool.and_eq_true, decide_eq_true_eq] at h
    constructor
    · intro hh; cases hh
    · intro hh; omega

/-- `j` is an ancestor (inclusive) of heap index `m`. -/
def isAnc (j m : Nat) : Prop := ∃ k, m / 2 ^ k = j

theorem isAnc_self (m : Nat) : isAnc m m := ⟨0, by simp⟩

theorem isAnc_half {c m : Nat} (h : isAnc c m) : isAnc (c / 2) m := by
  obtain ⟨k, hk⟩ := h
  exact ⟨k + 1, by rw [pow_succ, ← Nat.div_div_eq_div_mul, hk]⟩

theorem not_isAnc_child {j m c : Nat} (h : ¬ isAnc j m) (hc : c = 2 * j ∨ c = 2 * j + 1) :
    ¬ isAnc c m := by
  intro h2
  apply h
  have := isAnc_half h2
  have hcj : c / 2 = j := by omega
  rwa [hcj] at this

theorem idxAfter_isAnc : ∀ (p : List Bool) (j : Nat), isAnc j (idxAfter j p) := by
  intro p
  induction p with
  | nil => intro j; exact isAnc_self j
  | cons b p ih =>
    intro j
    have h := ih (if b then 2 * j + 1 else 2 * j)
    have h2 := isAnc_half h
    simp only [idxAfter]
    have hj : (if b then 2 * j + 1 else 2 * j) / 2 = j := by cases b <;> simp <;> omega
    rwa [hj] at h2

/-- Index siblings cannot both be ancestors of the same index. -/
theorem not_isAnc_sibling {i m c d : Nat} (hi : 1 ≤ i)
    (hc : c = 2 * i ∨ c = 2 * i + 1) (hd : d = 2 * i ∨ d = 2 * i + 1) (hne : c ≠ d)
    (h : isAnc c m) : ¬ isAnc d m := by
  rintro ⟨k2, hk2⟩
  obtain ⟨k1, hk1⟩ := h
  have key : ∀ (a b ka kb : Nat), m / 2 ^ ka = a → m / 2 ^ kb = b → ka < kb →
      (a = 2 * i ∨ a = 2 * i + 1) → (b = 2 * i ∨ b = 2 * i + 1) → False := by
    intro a b ka kb hka hkb hlt hha hhb
    have hexp : ka + (kb - ka) = kb := by omega
    have hb2 : b = a / 2 ^ (kb - ka) := by
      rw [← hka, ← hkb, Nat.div_div_eq_div_mul, ← pow_add, hexp]
    have h2le : 2 ≤ 2 ^ (kb - ka) := by
      calc (2 : Nat) = 2 ^ 1 := by norm_num
      _ ≤ 2 ^ (kb - ka) := Nat.pow_le_pow_right (by norm_num) (by omega)
    have hble : a / 2 ^ (kb - ka) ≤ a / 2 := Nat.div_le_div_left h2le (by norm_num)
    have ha2 : a / 2 = i := by omega
    omega
  rcases lt_trichotomy k1 k2 with hlt | heq | hgt
  · exact key c d k1 k2 hk1 hk2 hlt hc hd
  · apply hne
    rw [← hk1, ← hk2, heq]
  · exact key d c k2 k1 hk2 hk1 hgt hd hc

/-- A tree that is complete for `n` nodes is also complete for `n + 1` nodes,
provided its root index is not an ancestor of the new index `n + 1` (the new
node goes elsewhere). -/
theorem completeIdx_bump : ∀ (t : Tree) (j n : Nat), completeIdx t j n = true →
    ¬ isAnc j (n + 1) → completeIdx t j (n + 1) = true := by
  intro t
  induction t with
  | leaf =>
    intro j n h hanc
    simp only [completeIdx, decide_eq_true_eq] at h ⊢
    have : j ≠ n + 1 := fun hh => hanc (hh ▸ isAnc_self j)
    omega
  | node x l r ihl ihr =>
    intro j n h hanc
    rw [completeIdx_node] at h ⊢
    simp only [Bool.and_eq_true, decide_eq_true_eq] at h ⊢
    obtain ⟨⟨h1, h2⟩, h3⟩ := h
    exact ⟨⟨by omega, ihl (2 * j) n h2 (not_isAnc_child hanc (Or.inl rfl))⟩,
      ihr (2 * j + 1) n h3 (not_isAnc_child hanc (Or.inr rfl))⟩

/-- Symmetrically, completeness for `n` nodes descends to `n - 1` nodes away
from the removed index `n`. -/
theorem completeIdx_drop : ∀ (t : Tree) (j n : Nat), completeIdx t j n = true →
    ¬ isAnc j n → completeIdx t j (n - 1) = true := by
  intro t
  induction t with
  | leaf =>
    intro j n h hanc
    simp only [completeIdx, decide_eq_true_eq] at h ⊢
    omega
  | node x l r ihl ihr =>
    intro j n h hanc
    rw [completeIdx_node] at h ⊢
    simp only [Bool.and_eq_true, decide_eq_true_eq] at h ⊢
    obtain ⟨⟨h1, h2⟩, h3⟩ := h
    have hjn : j ≠ n := fun hh => hanc (hh ▸ isAnc_self j)
    exact ⟨⟨by omega, ihl (2 * j) n h2 (not_isAnc_child hanc (Or.inl rfl))⟩,
      ihr (2 * j + 1) n h3 (not_isAnc_child hanc (Or.inr rfl))⟩

theorem setRoot_completeIdx (v : Process) (t : Tree) (i n : Nat) :
    completeIdx (Tree.setRoot v t) i n = completeIdx t i n := by
  cases t <;> rfl

theorem siftDownAux_completeIdx (cmp : Process → Process → Bool) :
    ∀ (fuel : Nat) (t : Tree) (i n : Nat),
      completeIdx (Tree.siftDownAux cmp fuel t) i n = completeIdx t i n := by
  intro fuel t
  induction fuel, t using Tree.siftDownAux.induct cmp with
  | case1 t => intro i n; rfl
  | case2 fuel => intro i n; rfl
  | case3 fuel x => intro i n; rfl
  | case4 fuel x y yl yr hcmp ih =>
    intro i n
    have hins : Tree.siftDownAux cmp (fuel + 1) (Tree.node x (Tree.node y yl yr) Tree.leaf) =
        Tree.node y (Tree.siftDownAux cmp fuel (Tree.node x yl yr)) Tree.leaf := by
      rw [Tree.siftDownAux]; simp [hcmp]
    rw [hins]
    simp only [completeIdx_node, ih]
  | case5 fuel x y yl yr hcmp =>
    intro i n
    have hins : Tree.siftDownAux cmp (fuel + 1) (Tree.node x (Tree.node y yl yr) Tree.leaf) =
        Tree.node x (Tree.node y yl yr) Tree.leaf := by
      rw [Tree.siftDownAux]; simp [hcmp]
    rw [hins]
  | case6 fuel x z zl zr hcmp ih =>
    intro i n
    have hins : Tree.siftDownAux cmp (fuel + 1) (Tree.node x Tree.leaf (Tree.node z zl zr)) =
        Tree.node z Tree.leaf (Tree.siftDownAux cmp fuel (Tree.node x zl zr)) := by
      rw [Tree.siftDownAux]; simp [hcmp]
    rw [hins]
    simp only [completeIdx_node, ih]
  | case7 fuel x z zl zr hcmp =>
    intro i n
    have hins : Tree.siftDownAux cmp (fuel + 1) (Tree.node x Tree.leaf (Tree.node z zl zr)) =
        Tree.node x Tree.leaf (Tree.node z zl zr) := by
      rw [Tree.siftDownAux]; simp [hcmp]
    rw [hins]
  | case8 fuel x y yl yr z zl zr hyz hcmp ih =>
    intro i n
    have hins : Tree.siftDownAux cmp (fuel + 1)
        (Tree.node x (Tree.node y yl yr) (Tree.node z zl zr)) =
        Tree.node y (Tree.siftDownAux cmp fuel (Tree.node x yl yr)) (Tree.node z zl zr) := by
      rw [Tree.siftDownAux]; simp [hyz, hcmp]
    rw [hins]
    simp only [completeIdx_node, ih]
  | case9 fuel x y yl yr z zl zr hyz hcmp =>
    intro i n
    have hins : Tree.siftDownAux cmp (fuel + 1)
        (Tree.node x (Tree.node y yl yr) (Tree.node z zl zr)) =
        Tree.node x (Tree.node y yl yr) (Tree.node z zl zr) := by
      rw [Tree.siftDownAux]; simp [hyz, hcmp]
    rw [hins]
  | case10 fuel x y yl yr z zl zr hyz hcmp ih =>
    intro i n
    have hins : Tree.siftDownAux cmp (fuel + 1)
        (Tree.node x (Tree.node y yl yr) (Tree.node z zl zr)) =
        Tree.node z (Tree.node y yl yr) (Tree.siftDownAux cmp fuel (Tree.node x zl zr)) := by
      rw [Tree.siftDownAux]; simp [hyz, hcmp]
    rw [hins]
    simp only [completeIdx_node, ih]
  | case11 fuel x y yl yr z zl zr hyz hcmp =>
    intro i n
    have hins : Tree.siftDownAux cmp (fuel + 1)
        (Tree.node x (Tree.node y yl yr) (Tree.node z zl zr)) =
        Tree.node x (Tree.node y yl yr) (Tree.node z zl zr) := by
      rw [Tree.siftDownAux]; simp [hyz, hcmp]
    rw [hins]

theorem siftDown_completeIdx (cmp : Process → Process → Bool) (t : Tree) (i n : Nat) :
    completeIdx (Tree.siftDown cmp t) i n = completeIdx t i n :=
  siftDownAux_completeIdx cmp t.size t i n

/-- Inserting at the bit path of the fresh index `n + 1` preserves
completeness (now with `n + 1` nodes) and adds exactly one copy of `v`. -/
theorem siftInsert_complete_mul {cmp} (v : Process) :
    ∀ (p : List Bool) (t : Tree) (i n : Nat), 1 ≤ i →
      completeIdx t i n = true → idxAfter i p = n + 1 →
      completeIdx (Tree.siftInsert cmp v t p) i (n + 1) = true ∧
      (Tree.siftInsert cmp v t p).toMul = v ::ₘ t.toMul := by
  intro p
  induction p with
  | nil =>
    intro t i n hi hc hidx
    simp only [idxAfter] at hidx
    have hleaf : t = Tree.leaf := (completeIdx_leaf_iff hc).mpr (by omega)
    subst hleaf
    constructor
    · show completeIdx (Tree.node v Tree.leaf Tree.leaf) i (n + 1) = true
      rw [completeIdx_node]
      simp only [Bool.and_eq_true, decide_eq_true_eq, completeIdx]
      omega
    · simp [Tree.siftInsert, Tree.toMul]
  | cons b p ih =>
    intro t i n hi hc hidx
    have hge : 2 * i ≤ n + 1 := by
      have := idxAfter_cons_ge i b p
      omega
    cases t with
    | leaf =>
      exfalso
      simp only [completeIdx, decide_eq_true_eq] at hc
      omega
    | node x l r =>
      rw [completeIdx_node] at hc
      simp only [Bool.and_eq_true, decide_eq_true_eq] at hc
      obtain ⟨⟨hin, hcl⟩, hcr⟩ := hc
      cases b
      · have hidx2 : idxAfter (2 * i) p = n + 1 := by simpa [idxAfter] using hidx
        obtain ⟨ihc, ihm⟩ := ih l (2 * i) n (by omega) hcl hidx2
        have hne : Tree.siftInsert cmp v l p ≠ Tree.leaf := by
          intro hh
          rw [hh] at ihm
          have := congrArg Multiset.card ihm
          simp [Tree.toMul] at this
        rcases hch : Tree.siftInsert cmp v l p with _ | ⟨y, cl2, cr2⟩
        · exact absurd hch hne
        · rw [hch] at ihc ihm
          have hins : Tree.siftInsert cmp v (Tree.node x l r) (false :: p) =
              if cmp y x then Tree.node y (Tree.node x cl2 cr2) r
              else Tree.node x (Tree.node y cl2 cr2) r := by
            simp [Tree.siftInsert, hch]
          rw [hins]
          have hanc : ¬ isAnc (2 * i + 1) (n + 1) := by
            apply not_isAnc_sibling hi (Or.inl rfl) (Or.inr rfl) (by omega)
            rw [← hidx2]
            exact idxAfter_isAnc p (2 * i)
          have hcr2 : completeIdx r (2 * i + 1) (n + 1) = true :=
        completeIdx_bump r _ n hcr hanc
          constructor
          · split_ifs <;>
            · rw [completeIdx_node]
              simp only [Bool.and_eq_true]
              rw [completeIdx_node] at ihc ⊢
              exact ⟨⟨by simp only [decide_eq_true_eq]; omega, ihc⟩, hcr2⟩
          · split_ifs <;>
            · ext a
              have hcnt := congrArg (Multiset.count a) ihm
              simp only [Tree.toMul_node, Multiset.count_cons, Multiset.count_add] at hcnt ⊢
              omega
      · have hidx2 : idxAfter (2 * i + 1) p = n + 1 := by simpa [idxAfter] using hidx
        obtain ⟨ihc, ihm⟩ := ih r (2 * i + 1) n (by omega) hcr hidx2
        have hne : Tree.siftInsert cmp v r p ≠ Tree.leaf := by
          intro hh
          rw [hh] at ihm
          have := congrArg Multiset.card ihm
          simp [Tree.toMul] at this
        rcases hch : Tree.siftInsert cmp v r p with _ | ⟨y, cl2, cr2⟩
        · exact absurd hch hne
        · rw [hch] at ihc ihm
          have hins : Tree.siftInsert cmp v (Tree.node x l r) (true :: p) =
              if cmp y x then Tree.node y l (Tree.node x cl2 cr2)
              else Tree.node x l (Tree.node y cl2 cr2) := by
            simp [Tree.siftInsert, hch]
          rw [hins]
          have hanc : ¬ isAnc (2 * i) (n + 1) := by
            apply not_isAnc_sibling hi (Or.inr rfl) (Or.inl rfl) (by omega)
            rw [← hidx2]
            exact idxAfter_isAnc p (2 * i + 1)
          have hcl2 : completeIdx l (2 * i) (n + 1) = true :=
        completeIdx_bump l _ n hcl hanc
          constructor
          · split_ifs <;>
            · rw [completeIdx_node]
              simp only [Bool.and_eq_true]
              rw [completeIdx_node] at ihc ⊢
              exact ⟨⟨by simp only [decide_eq_true_eq]; omega, hcl2⟩, ihc⟩
          · split_ifs <;>
            · ext a
              have hcnt := congrArg (Multiset.count a) ihm
              simp only [Tree.toMul_node, Multiset.count_cons, Multiset.count_add] at hcnt ⊢
              omega

/-- Removing the node at the bit path of index `n` from a complete `n`-node
tree succeeds, leaves a complete `n - 1`-node tree, and removes exactly the
returned payload. -/
theorem removeLast_complete_mul :
    ∀ (p : List Bool) (t : Tree) (i n : Nat), 1 ≤ i → 1 ≤ n →
      completeIdx t i n = true → idxAfter i p = n →
      ∃ vx t2, Tree.removeLast t p = (some vx, t2) ∧
        completeIdx t2 i (n - 1) = true ∧ t.toMul = vx ::ₘ t2.toMul := by
  intro p
  induction p with
  | nil =>
    intro t i n hi hn hc hidx
    simp only [idxAfter] at hidx
    have hnode : t ≠ Tree.leaf := by
      intro hh
      rw [hh] at hc
      simp only [completeIdx, decide_eq_true_eq] at hc
      omega
    cases t with
    | leaf => exact absurd rfl hnode
    | node x l r =>
      rw [completeIdx_node] at hc
      simp only [Bool.and_eq_true, decide_eq_true_eq] at hc
      obtain ⟨⟨h1, h2⟩, h3⟩ := hc
      have hl : l = Tree.leaf := (completeIdx_leaf_iff h2).mpr (by omega)
      have hr : r = Tree.leaf := (completeIdx_leaf_iff h3).mpr (by omega)
      subst hl
      subst hr
      refine ⟨x, Tree.leaf, rfl, ?_, by simp [Tree.toMul]⟩
      simp only [completeIdx, decide_eq_true_eq]
      omega
  | cons b p ih =>
    intro t i n hi hn hc hidx
    have hge : 2 * i ≤ n := by
      have := idxAfter_cons_ge i b p
      omega
    cases t with
    | leaf =>
      exfalso
      simp only [completeIdx, decide_eq_true_eq] at hc
      omega
    | node x l r =>
      rw [completeIdx_node] at hc
      simp only [Bool.and_eq_true, decide_eq_true_eq] at hc
      obtain ⟨⟨h1, h2⟩, h3⟩ := hc
      cases b
      · have hidx2 : idxAfter (2 * i) p = n := by simpa [idxAfter] using hidx
        obtain ⟨vx, l2, hrem, hc2, hm⟩ := ih l (2 * i) n (by omega) (by omega) h2 hidx2
        have hstep : Tree.removeLast (Tree.node x l r) (false :: p) =
            ((Tree.removeLast l p).1, Tree.node x (Tree.removeLast l p).2 r) := by
          simp [Tree.removeLast]
        have hanc : ¬ isAnc (2 * i + 1) n := by
          apply not_isAnc_sibling hi (Or.inl rfl) (Or.inr rfl) (by omega)
          rw [← hidx2]
          exact idxAfter_isAnc p (2 * i)
        refine ⟨vx, Tree.node x l2 r, ?_, ?_, ?_⟩
        · rw [hstep, hrem]
        · rw [completeIdx_node]
          simp only [Bool.and_eq_true, decide_eq_true_eq]
          exact ⟨⟨by omega, hc2⟩, completeIdx_drop r _ n h3 hanc⟩
        · ext a
          have hcnt := congrArg (Multiset.count a) hm
          simp only [Tree.toMul_node, Multiset.count_cons, Multiset.count_add] at hcnt ⊢
          omega
      · have hidx2 : idxAfter (2 * i + 1) p = n := by simpa [idxAfter] using hidx
        obtain ⟨vx, r2, hrem, hc2, hm⟩ := ih r (2 * i + 1) n (by omega) (by omega) h3 hidx2
        have hstep : Tree.removeLast (Tree.node x l r) (true :: p) =
            ((Tree.removeLast r p).1, Tree.node x l (Tree.removeLast r p).2) := by
          simp [Tree.removeLast]
        have hanc : ¬ isAnc (2 * i) n := by
          apply not_isAnc_sibling hi (Or.inr rfl) (Or.inl rfl) (by omega)
          rw [← hidx2]
          exact idxAfter_isAnc p (2 * i + 1)
        refine ⟨vx, Tree.node x l r2, ?_, ?_, ?_⟩
        · rw [hstep, hrem]
        · rw [completeIdx_node]
          simp only [Bool.and_eq_true, decide_eq_true_eq]
          exact ⟨⟨by omega, completeIdx_drop l _ n h2 hanc⟩, hc2⟩
        · ext a
          have hcnt := congrArg (Multiset.count a) hm
          simp only [Tree.toMul_node, Multiset.count_cons, Multiset.count_add] at hcnt ⊢
          omega

/-- `Priority_Enqueue` preserves well-formedness and adds exactly the new
process to the stored multiset. -/
theorem Priority_Enqueue_wf_mul {cmp} (q : PQ) (v : Process) (h : pqWF q) :
    pqWF (Priority_Enqueue cmp q v) ∧
    (Priority_Enqueue cmp q v).top.toMul = v ::ₘ q.top.toMul := by
  unfold pqWF at h ⊢
  unfold Priority_Enqueue
  split_ifs with h0
  · have hleaf : q.top = Tree.leaf := (completeIdx_leaf_iff h).mpr (by omega)
    rw [hleaf]
    exact ⟨rfl, by simp [Tree.toMul]⟩
  · dsimp only
    have hres := @siftInsert_complete_mul cmp v (bitPath (q.count + 1)) q.top 1 q.count
      (by omega) h (idxAfter_bitPath (q.count + 1) (by omega))
    exact hres

/-- `Priority_Dequeue` on a non-empty well-formed queue preserves
well-formedness, reports the old `count - 1`, and removes exactly the top
process from the stored multiset. -/
theorem Priority_Dequeue_wf_mul {cmp} (q : PQ) (h : pqWF q) (hne : q.count ≠ 0) :
    pqWF (Priority_Dequeue cmp q) ∧ (Priority_Dequeue cmp q).count = q.count - 1 ∧
    ∃ x, Priority_Top q = some x ∧
      q.top.toMul = x ::ₘ (Priority_Dequeue cmp q).top.toMul := by
  unfold pqWF at h ⊢
  unfold Priority_Dequeue Priority_Top
  rw [if_neg hne, if_neg hne]
  by_cases h1 : q.count = 1
  · rw [if_pos h1]
    have hnode : q.top ≠ Tree.leaf := by
      intro hh
      rw [hh] at h
      simp only [completeIdx, decide_eq_true_eq] at h
      omega
    rcases htop : q.top with _ | ⟨x, l, r⟩
    · exact absurd htop hnode
    · rw [htop, h1] at h
      rw [completeIdx_node] at h
      simp only [Bool.and_eq_true, decide_eq_true_eq] at h
      obtain ⟨⟨hh1, hh2⟩, hh3⟩ := h
      have hl : l = Tree.leaf := (completeIdx_leaf_iff hh2).mpr (by omega)
      have hr : r = Tree.leaf := (completeIdx_leaf_iff hh3).mpr (by omega)
      subst hl
      subst hr
      exact ⟨rfl, by simp [PQ.empty, h1], x, rfl, by simp [Tree.toMul, PQ.empty]⟩
  · rw [if_neg h1]
    obtain ⟨vx, t2, hrem, hc2, hm⟩ := removeLast_complete_mul (bitPath q.count) q.top 1 q.count
      (by omega) (by omega) h (idxAfter_bitPath q.count (by omega))
    dsimp only
    rw [hrem]
    dsimp only
    have ht2ne : t2 ≠ Tree.leaf := by
      intro hh
      rw [hh] at hc2
      simp only [completeIdx, decide_eq_true_eq] at hc2
      omega
    have hroot2 : t2.root? = q.top.root? := by
      rcases removeLast_root q.top (bitPath q.count) with hh | hh
      · rw [hrem] at hh
        exact absurd hh ht2ne
      · rw [hrem] at hh
        exact hh
    have hqne : q.top ≠ Tree.leaf := by
      intro hh
      rw [hh] at h
      simp only [completeIdx, decide_eq_true_eq] at h
      omega
    obtain ⟨x0, hx0⟩ : ∃ x0, q.top.root? = some x0 := by
      rcases hq : q.top with _ | ⟨a, b, c⟩
      · exact absurd hq hqne
      · exact ⟨a, rfl⟩
    have hx2 : t2.root? = some x0 := by rw [hroot2, hx0]
    obtain ⟨l2, r2, ht2⟩ : ∃ l2 r2, t2 = Tree.node x0 l2 r2 := by
      rcases ht : t2 with _ | ⟨a, b, c⟩
      · exact absurd ht ht2ne
      · rw [ht] at hx2
        simp only [Tree.root?, Option.some.injEq] at hx2
        exact ⟨b, c, by rw [hx2]⟩
    refine ⟨?_, rfl, x0, hx0, ?_⟩
    · rw [siftDown_completeIdx, setRoot_completeIdx]
      exact hc2
    · rw [siftDown_toMul, ht2]
      show q.top.toMul = x0 ::ₘ (Tree.node vx l2 r2).toMul
      rw [hm, ht2]
      simp only [Tree.toMul_node]
      exact Multiset.cons_swap vx x0 (l2.toMul + r2.toMul)

/-! ## Claim C10: no wraparound in the I/O advance -/

theorem io_cmp_false_le {y p : Process} (h : IO_Burst_Compare y p = false) :
    p.io_burst_time ≤ y.io_burst_time := by
  unfold IO_Burst_Compare at h
  split_ifs at h with hne
  · simp only [decide_eq_false_iff_not] at h
    omega
  · omega

theorem mem_Priority_Enqueue {cmp} {q : PQ} {v y : Process}
    (h : y ∈ (Priority_Enqueue cmp q v).top.toMul) : y = v ∨ y ∈ q.top.toMul := by
  unfold Priority_Enqueue at h
  split_ifs at h
  · simp [Tree.toMul] at h
    exact Or.inl h
  · exact mem_toMul_siftInsert h

/-- After the I/O-completion drain of `Simulator_LoadReadyQueue`, every
process still stored in the waiting heap has a positive `io_burst_time`: the
drain removes successive heap tops while their burst is zero, it stops at a
top with a positive burst, and by root-minimality under `IO_Burst_Compare`
every remaining burst is at least the top's. -/
theorem drainIOZeroQ_io_pos :
    ∀ (fuel : Nat) (wq : PQ) (rq : Queue), fuel = wq.count → pqWF wq →
      heapOk IO_Burst_Compare wq.top = true →
      ∀ p, p ∈ (drainIOZeroQ fuel wq rq).1.top.toMul → 1 ≤ p.io_burst_time := by
  intro fuel
  induction fuel with
  | zero =>
    intro wq rq hf hwf hok p hp
    have hleaf : wq.top = Tree.leaf := (completeIdx_leaf_iff hwf).mpr (by omega)
    simp only [drainIOZeroQ] at hp
    rw [hleaf] at hp
    simp [Tree.toMul] at hp
  | succ f ih =>
    intro wq rq hf hwf hok p hp
    have hcne : wq.count ≠ 0 := by omega
    obtain ⟨x0, hx0⟩ : ∃ x0, wq.top.root? = some x0 := by
      rcases hq : wq.top with _ | ⟨a, b, c⟩
      · exfalso
        unfold pqWF at hwf
        rw [hq] at hwf
        simp only [completeIdx, decide_eq_true_eq] at hwf
        omega
      · exact ⟨a, rfl⟩
    have htop : Priority_Top wq = some x0 := by
      unfold Priority_Top
      rw [if_neg hcne]
      exact hx0
    simp only [drainIOZeroQ] at hp
    rw [htop] at hp
    dsimp only at hp
    by_cases hio : x0.io_burst_time = 0
    · rw [if_pos hio] at hp
      obtain ⟨hwf2, hcnt, -⟩ := @Priority_Dequeue_wf_mul IO_Burst_Compare wq hwf hcne
      exact ih _ _ (by omega) hwf2 (Priority_Dequeue_heapOk strictCmp_IO_Burst wq hok) p hp
    · rw [if_neg hio] at hp
      have hcmpf : IO_Burst_Compare p x0 = false :=
        heap_rootMin strictCmp_IO_Burst wq.top x0 p hok hx0 hp
      have := io_cmp_false_le hcmpf
      omega

/-- The per-process I/O advance written with plain (non-wrapping) `Nat`
subtraction, for comparison with `ioAdvUpd`. -/
def ioAdvNoWrap (p : Process) : Process :=
  { p with io_burst_time := p.io_burst_time - 1,
           turnaround_time := p.turnaround_time + 1 }

def mapIONoWrap : Tree → Tree
  | .leaf => .leaf
  | .node p l r => .node (ioAdvNoWrap p) (mapIONoWrap l) (mapIONoWrap r)

theorem adv_eq_noWrap : ∀ (t : Tree), (∀ p, p ∈ t.toMul → 1 ≤ p.io_burst_time) →
    Simulator_Process_IO_Adv t = mapIONoWrap t := by
  intro t
  induction t with
  | leaf => intro _; rfl
  | node x l r ihl ihr =>
    intro hpos
    show Tree.node (ioAdvUpd x) _ _ = Tree.node (ioAdvNoWrap x) _ _
    have hx : 1 ≤ x.io_burst_time := hpos x (by simp [Tree.toMul_node])
    have hupd : ioAdvUpd x = ioAdvNoWrap x := by
      unfold ioAdvUpd ioAdvNoWrap uintDec
      rw [if_neg (by omega)]
    rw [hupd, ihl fun p hp => hpos p (by
        simp only [Tree.toMul_node, Multiset.mem_cons, Multiset.mem_add]
        exact Or.inr (Or.inl hp)),
      ihr fun p hp => hpos p (by
        simp only [Tree.toMul_node, Multiset.mem_cons, Multiset.mem_add]
        exact Or.inr (Or.inr hp))]

/-- Claim C10: if the waiting heap is well-formed and heap-ordered at the
start of a tick, then (a) after `Simulator_LoadReadyQueue` drains the
zero-burst processes, every process still in the waiting heap has
`io_burst_time ≥ 1`; (b) `Simulator_LoadProcess` never touches the waiting
heap; (c) consequently the I/O-advance step that follows decrements without
wrapping — it coincides with the plain `Nat` decrement `mapIONoWrap`; and
(d) `Simulator_CPU_Burst` only ever inserts processes with nonzero
`io_burst_time` into the waiting heap. -/
theorem waiting_io_positive_at_io_advance (s : Sim Queue)
    (hwf : pqWF s.waiting_queue)
    (hok : heapOk IO_Burst_Compare s.waiting_queue.top = true) :
    (∀ p, p ∈ (Simulator_LoadReadyQueue s).waiting_queue.top.toMul →
      1 ≤ p.io_burst_time) ∧
    (∀ x : Sim Queue, (Simulator_LoadProcess x).waiting_queue = x.waiting_queue) ∧
    Simulator_Process_IO_Adv
        (Simulator_LoadProcess (Simulator_LoadReadyQueue s)).waiting_queue.top =
      mapIONoWrap (Simulator_LoadProcess (Simulator_LoadReadyQueue s)).waiting_queue.top ∧
    (∀ (x : Sim Queue) (p : Process),
      p ∈ (Simulator_CPU_Burst x).1.waiting_queue.top.toMul →
      p ∈ x.waiting_queue.top.toMul ∨ 1 ≤ p.io_burst_time) := by
  have hload : ∀ x : Sim Queue, (Simulator_LoadProcess x).waiting_queue = x.waiting_queue := by
    intro x
    unfold Simulator_LoadProcess
    rcases x.cur_cpu_burst with _ | c
    · dsimp only
      split_ifs <;> rfl
    · rfl
  have hpos : ∀ p, p ∈ (Simulator_LoadReadyQueue s).waiting_queue.top.toMul →
      1 ≤ p.io_burst_time := by
    have hw : (Simulator_LoadReadyQueue s).waiting_queue =
        (drainIOZeroQ s.waiting_queue.count s.waiting_queue
          (drainArrivalsQ s.generated_processes.count s.generated_processes
            s.ready_queue s.elapsed_time).2).1 := rfl
    rw [hw]
    exact drainIOZeroQ_io_pos s.waiting_queue.count s.waiting_queue _ rfl hwf hok
  refine ⟨hpos, hload, ?_, ?_⟩
  · rw [hload]
    exact adv_eq_noWrap _ hpos
  · intro x p hp
    unfold Simulator_CPU_Burst at hp
    rcases hcb : x.cur_cpu_burst with _ | p0 <;> rw [hcb] at hp <;> dsimp only at hp
    · exact Or.inl hp
    · split_ifs at hp with h1 h2 h3 h4
      · rcases mem_Priority_Enqueue hp with rfl | hm
        · right
          show 1 ≤ p0.io_burst_time
          omega
        · exact Or.inl hm
      · rcases mem_Priority_Enqueue hp with rfl | hm
        · right
          show 1 ≤ p0.io_burst_time
          omega
        · exact Or.inl hm
      · exact Or.inl hp
      · exact Or.inl hp
      · exact Or.inl hp

/-! ## Claim C6: random I/O interrupt resolution -/

/-- A well-formed priority queue with `count = 0` stores nothing at all. -/
theorem pqWF_zero_empty {q : PQ} (h : pqWF q) (h0 : q.count = 0) : q = PQ.empty := by
  have h1 : completeIdx q.top 1 q.count = true := h
  have hleaf : q.top = Tree.leaf := (completeIdx_leaf_iff h1).mpr (by omega)
  cases q
  simp_all [PQ.empty]

/-- Spec-side model of the randomized trials of the interrupt loop: pair each
process (in the order the loop visits them) with the outcome of its
100-sample trial, threading the sample stream. -/
def ioFlags : List Process → List Bool → List (Process × Bool) × List Bool
  | [], rand => ([], rand)
  | p :: ps, rand =>
    let res := Simulator_Probability rand
    let rest := ioFlags ps res.2
    ((p, res.1) :: rest.1, rest.2)

/-- The move-to-ready condition of the interrupt loop: the randomized trial
fired and the process still has more than one CPU tick left. -/
def intFired (pb : Process × Bool) : Bool := pb.2 && decide (1 < pb.1.cpu_burst_time)

/-- The processes the interrupt resolution moves back to ready, in visit
order. -/
def movedOf (ps : List Process) (rand : List Bool) : List Process :=
  (((ioFlags ps rand).1.filter intFired).map Prod.fst)

/-- The processes the interrupt resolution keeps waiting, in visit order. -/
def keptOf (ps : List Process) (rand : List Bool) : List Process :=
  (((ioFlags ps rand).1.filter fun pb => !intFired pb).map Prod.fst)

theorem ioFlags_cons (p : Process) (ps : List Process) (rand : List Bool) :
    ioFlags (p :: ps) rand =
      ((p, (Simulator_Probability rand).1) ::
          (ioFlags ps (Simulator_Probability rand).2).1,
        (ioFlags ps (Simulator_Probability rand).2).2) := rfl

theorem movedOf_cons (p : Process) (ps : List Process) (rand : List Bool) :
    movedOf (p :: ps) rand =
      if intFired (p, (Simulator_Probability rand).1) = true then
        p :: movedOf ps (Simulator_Probability rand).2
      else movedOf ps (Simulator_Probability rand).2 := by
  unfold movedOf
  rw [ioFlags_cons]
  dsimp only
  rw [List.filter_cons]
  split_ifs <;> simp

theorem keptOf_cons (p : Process) (ps : List Process) (rand : List Bool) :
    keptOf (p :: ps) rand =
      if intFired (p, (Simulator_Probability rand).1) = true then
        keptOf ps (Simulator_Probability rand).2
      else p :: keptOf ps (Simulator_Probability rand).2 := by
  unfold keptOf
  rw [ioFlags_cons]
  dsimp only
  rw [List.filter_cons]
  split_ifs with h1 h2 h3 <;> simp_all

theorem ioFlags_map_fst : ∀ (ps : List Process) (rand : List Bool),
    ((ioFlags ps rand).1.map Prod.fst) = ps := by
  intro ps
  induction ps with
  | nil => intro rand; rfl
  | cons p ps ih =>
    intro rand
    rw [ioFlags_cons]
    dsimp only [List.map_cons]
    rw [ih]

/-- Every visited process ends up in exactly one of the two output lists;
together they are a permutation of the visit order. -/
theorem moved_kept_perm (ps : List Process) (rand : List Bool) :
    (movedOf ps rand ++ keptOf ps rand).Perm ps := by
  unfold movedOf keptOf
  rw [← List.map_append]
  have h := (List.filter_append_perm intFired (ioFlags ps rand).1).map Prod.fst
  rw [ioFlags_map_fst ps rand] at h
  exact h

/-- Draining a well-formed heap visits exactly the stored multiset. -/
theorem pqDrain_toMul : ∀ (fuel : Nat) (q : PQ), fuel = q.count → pqWF q →
    ((pqDrain IO_Burst_Compare fuel q : List Process) : Multiset Process) =
      q.top.toMul := by
  intro fuel
  induction fuel with
  | zero =>
    intro q hf hwf
    have h1 : completeIdx q.top 1 q.count = true := hwf
    have hleaf : q.top = Tree.leaf := (completeIdx_leaf_iff h1).mpr (by omega)
    simp [pqDrain, hleaf, Tree.toMul]
  | succ f ih =>
    intro q hf hwf
    have hcne : q.count ≠ 0 := by omega
    obtain ⟨hwf2, hcnt, x, htop, hmul⟩ :=
      @Priority_Dequeue_wf_mul IO_Burst_Compare q hwf hcne
    simp only [pqDrain]
    rw [htop]
    dsimp only
    rw [hmul]
    simp only [← Multiset.cons_coe]
    rw [ih _ (by omega) hwf2]

/-- Characterization of the while loop of `Simulator_Process_IO_Queue` on a
well-formed waiting heap run with `fuel = count`: the loop visits and removes
every stored process in drain order, appends the fired ones (trial success
and `cpu_burst_time > 1`) to the FIFO ready queue, rebuilds the others into
the replacement heap under `IO_Burst_Compare`, and consumes exactly the
samples of the trials. -/
theorem ioInterruptLoopQ_spec :
    ∀ (fuel : Nat) (wq : PQ) (rq : Queue) (tmp : PQ) (rand : List Bool),
      fuel = wq.count → pqWF wq →
      ioInterruptLoopQ fuel wq rq tmp rand =
        (PQ.empty,
          ⟨rq.count + (movedOf (pqDrain IO_Burst_Compare fuel wq) rand).length,
            rq.items ++ movedOf (pqDrain IO_Burst_Compare fuel wq) rand⟩,
          (keptOf (pqDrain IO_Burst_Compare fuel wq) rand).foldl
            (fun a p => Priority_Enqueue IO_Burst_Compare a p) tmp,
          (ioFlags (pqDrain IO_Burst_Compare fuel wq) rand).2) := by
  intro fuel
  induction fuel with
  | zero =>
    intro wq rq tmp rand hf hwf
    rw [pqWF_zero_empty hwf (by omega)]
    simp only [ioInterruptLoopQ, pqDrain, movedOf, keptOf, ioFlags, List.filter_nil,
      List.map_nil, List.length_nil, List.append_nil, List.foldl_nil, Nat.add_zero]
  | succ f ih =>
    intro wq rq tmp rand hf hwf
    have hcne : wq.count ≠ 0 := by omega
    obtain ⟨x0, hx0⟩ : ∃ x0, wq.top.root? = some x0 := by
      rcases hq : wq.top with _ | ⟨a, b, c⟩
      · exfalso
        have h1 : completeIdx wq.top 1 wq.count = true := hwf
        rw [hq] at h1
        simp only [completeIdx, decide_eq_true_eq] at h1
        omega
      · exact ⟨a, rfl⟩
    have htop : Priority_Top wq = some x0 := by
      unfold Priority_Top
      rw [if_neg hcne]
      exact hx0
    obtain ⟨hwf2, hcnt, -⟩ :=
      @Priority_Dequeue_wf_mul IO_Burst_Compare wq hwf hcne
    have hrec : ∀ (rq2 : Queue) (tmp2 : PQ) (rand2 : List Bool),
        ioInterruptLoopQ f (Priority_Dequeue IO_Burst_Compare wq) rq2 tmp2 rand2 =
          (PQ.empty,
            ⟨rq2.count + (movedOf (pqDrain IO_Burst_Compare f
                (Priority_Dequeue IO_Burst_Compare wq)) rand2).length,
              rq2.items ++ movedOf (pqDrain IO_Burst_Compare f
                (Priority_Dequeue IO_Burst_Compare wq)) rand2⟩,
            (keptOf (pqDrain IO_Burst_Compare f
                (Priority_Dequeue IO_Burst_Compare wq)) rand2).foldl
              (fun a p => Priority_Enqueue IO_Burst_Compare a p) tmp2,
            (ioFlags (pqDrain IO_Burst_Compare f
                (Priority_Dequeue IO_Burst_Compare wq)) rand2).2) :=
      fun rq2 tmp2 rand2 =>
        ih (Priority_Dequeue IO_Burst_Compare wq) rq2 tmp2 rand2 (by omega) hwf2
    simp only [ioInterruptLoopQ, pqDrain]
    rw [htop]
    dsimp only
    rw [movedOf_cons, keptOf_cons, ioFlags_cons]
    by_cases hb : ((Simulator_Probability rand).1 &&
        decide (1 < x0.cpu_burst_time)) = true
    · rw [if_pos hb]
      have hbf : intFired (x0, (Simulator_Probability rand).1) = true := hb
      rw [hrec (Queue_Enqueue rq x0) tmp (Simulator_Probability rand).2, if_pos hbf,
        if_pos hbf]
      simp only [Queue_Enqueue, List.length_cons, List.append_assoc,
        List.singleton_append]
      refine congrArg (fun c => (PQ.empty, Queue.mk c _, _, _)) ?_
      omega
    · rw [if_neg hb]
      have hbf : ¬intFired (x0, (Simulator_Probability rand).1) = true := hb
      rw [hrec rq (Priority_Enqueue IO_Burst_Compare tmp x0) (Simulator_Probability rand).2,
        if_neg hbf, if_neg hbf]
      rfl

/-- Claim C6: on a well-formed waiting heap, the random I/O interrupt step
moves a process back to ready exactly when its 100-sample trial fired and its
`cpu_burst_time` exceeds 1, keeps every other process waiting in a heap
rebuilt under `IO_Burst_Compare`, and the two groups exactly partition the
waiting multiset. -/
theorem io_interrupt_partition (s : Sim Queue) (ds : List Process)
    (hds : ds = pqDrain IO_Burst_Compare s.waiting_queue.count s.waiting_queue)
    (hwf : pqWF s.waiting_queue) :
    s.waiting_queue.top.toMul =
      (movedOf ds s.rand : Multiset Process) + (keptOf ds s.rand : Multiset Process) ∧
    Simulator_Process_IO_Queue s =
      { s with
          ready_queue := ⟨s.ready_queue.count + (movedOf ds s.rand).length,
            s.ready_queue.items ++ movedOf ds s.rand⟩,
          waiting_queue := (keptOf ds s.rand).foldl
            (fun a p => Priority_Enqueue IO_Burst_Compare a p) PQ.empty,
          rand := (ioFlags ds s.rand).2 } := by
  constructor
  · rw [hds, ← pqDrain_toMul s.waiting_queue.count s.waiting_queue rfl hwf]
    have hperm := moved_kept_perm (pqDrain IO_Burst_Compare s.waiting_queue.count
      s.waiting_queue) s.rand
    calc ((pqDrain IO_Burst_Compare s.waiting_queue.count s.waiting_queue :
            List Process) : Multiset Process)
        = ((movedOf (pqDrain IO_Burst_Compare s.waiting_queue.count s.waiting_queue)
              s.rand ++
            keptOf (pqDrain IO_Burst_Compare s.waiting_queue.count s.waiting_queue)
              s.rand : List Process) : Multiset Process) :=
          (Multiset.coe_eq_coe.mpr hperm).symm
      _ = _ := rfl
  · unfold Simulator_Process_IO_Queue
    by_cases h0 : s.waiting_queue.count = 0
    · rw [if_pos (by simp [Priority_IsEmpty, h0])]
      have hds2 : ds = [] := by rw [hds, h0]; rfl
      subst hds2
      have hwq : s.waiting_queue = PQ.empty := pqWF_zero_empty hwf h0
      cases s with
      | mk np gp tp cc rq wq et it rd =>
        cases rq with
        | mk rc ri =>
          simp only at hwq
          simp [movedOf, keptOf, ioFlags, hwq]
    · rw [if_neg (by simp [Priority_IsEmpty, h0])]
      dsimp only
      rw [ioInterruptLoopQ_spec s.waiting_queue.count s.waiting_queue s.ready_queue
        PQ.empty s.rand rfl hwf]
      rw [← hds]

/-- A state whose well-formed waiting heap holds one process with
`cpu_burst_time > 1` (eligible to be interrupted back to ready) and one with
`cpu_burst_time = 1` (never interrupted), with a sample stream making both
trials succeed. -/
def stC6 : Sim Queue :=
  { num_process := 3
    generated_processes := PQ.empty
    terminated_processes := PQ.empty
    cur_cpu_burst := none
    ready_queue := { count := 1, items := [⟨9, 9, 9, 9, 9, 9, 9⟩] }
    waiting_queue :=
      { count := 2
        top := Tree.node ⟨1, 1, 2, 0, 0, 0, 0⟩
          (Tree.node ⟨2, 3, 5, 0, 0, 0, 0⟩ Tree.leaf Tree.leaf) Tree.leaf }
    elapsed_time := 0
    idle_time := 0
    rand := List.replicate 200 true }

theorem io_interrupt_partition_witness :
    (pqDrain IO_Burst_Compare stC6.waiting_queue.count stC6.waiting_queue =
        pqDrain IO_Burst_Compare stC6.waiting_queue.count stC6.waiting_queue ∧
      pqWF stC6.waiting_queue) ∧
    (stC6.waiting_queue.top.toMul =
      (movedOf (pqDrain IO_Burst_Compare stC6.waiting_queue.count stC6.waiting_queue)
          stC6.rand : Multiset Process) +
        (keptOf (pqDrain IO_Burst_Compare stC6.waiting_queue.count stC6.waiting_queue)
          stC6.rand : Multiset Process) ∧
    Simulator_Process_IO_Queue stC6 =
      { stC6 with
          ready_queue := ⟨stC6.ready_queue.count +
              (movedOf (pqDrain IO_Burst_Compare stC6.waiting_queue.count
                stC6.waiting_queue) stC6.rand).length,
            stC6.ready_queue.items ++
              movedOf (pqDrain IO_Burst_Compare stC6.waiting_queue.count
                stC6.waiting_queue) stC6.rand⟩,
          waiting_queue := (keptOf (pqDrain IO_Burst_Compare stC6.waiting_queue.count
              stC6.waiting_queue) stC6.rand).foldl
            (fun a p => Priority_Enqueue IO_Burst_Compare a p) PQ.empty,
          rand := (ioFlags (pqDrain IO_Burst_Compare stC6.waiting_queue.count
            stC6.waiting_queue) stC6.rand).2 }) :=
  ⟨⟨rfl, by unfold pqWF; decide⟩,
    io_interrupt_partition stC6 _ rfl (by unfold pqWF; decide)⟩

/-- A well-formed, heap-ordered waiting heap holding one finished process
(`io_burst_time = 0`) and one with remaining I/O work. -/
def stC10 : Sim Queue :=
  { num_process := 2
    generated_processes := PQ.empty
    terminated_processes := PQ.empty
    cur_cpu_burst := none
    ready_queue := Queue.empty
    waiting_queue :=
      { count := 2
        top := Tree.node ⟨1, 3, 0, 0, 0, 0, 0⟩
          (Tree.node ⟨2, 3, 4, 0, 0, 0, 0⟩ Tree.leaf Tree.leaf) Tree.leaf }
    elapsed_time := 0
    idle_time := 0
    rand := [] }

theorem waiting_io_positive_at_io_advance_witness :
    (pqWF stC10.waiting_queue ∧ heapOk IO_Burst_Compare stC10.waiting_queue.top = true) ∧
    ((∀ p, p ∈ (Simulator_LoadReadyQueue stC10).waiting_queue.top.toMul →
      1 ≤ p.io_burst_time) ∧
    (∀ x : Sim Queue, (Simulator_LoadProcess x).waiting_queue = x.waiting_queue) ∧
    Simulator_Process_IO_Adv
        (Simulator_LoadProcess (Simulator_LoadReadyQueue stC10)).waiting_queue.top =
      mapIONoWrap (Simulator_LoadProcess (Simulator_LoadReadyQueue stC10)).waiting_queue.top ∧
    (∀ (x : Sim Queue) (p : Process),
      p ∈ (Simulator_CPU_Burst x).1.waiting_queue.top.toMul →
      p ∈ x.waiting_queue.top.toMul ∨ 1 ≤ p.io_burst_time)) :=
  ⟨⟨by unfold pqWF; decide, by decide⟩,
    waiting_io_positive_at_io_advance stC10 (by unfold pqWF; decide) (by decide)⟩

end CSS
